import Mathlib

/-!
Verification of the AltarServersJobs allocation engine (src/main.py, src/objects.py).

Embedding notes.
* `Height` / `Stamina` mirror the two enums of objects.py, with their numeric
  `value`s and their `name` strings.
* Python `Server` objects are shared by reference: every tier list, suggestion
  tuple and history list holds aliases of the roster objects, and the only
  mutable field is `jobs_doing`.  We therefore split the dataclass into the
  immutable part (`Server`, the six fields fixed at load time) and a separate
  counter map `jobsDoing : String → Nat` keyed by the server's name.  Given a
  roster with pairwise distinct field tuples (in particular distinct names,
  which the theorems assume via `Nodup`), equality of the immutable part
  coincides with Python object identity, so list membership (`in`), `remove`
  and set equality behave exactly as in the source.
* The full dataclass, including `jobs_doing`, is mirrored separately as
  `ServerRec` for the serialization and equality/hash claims, where the
  counter field matters.
* The source compares Euclidean distances `sqrt((Δh)^2 + (Δs)^2)` of small
  integers with `<`.  `Real.sqrt` is strictly monotone on these squares, and
  for the tiny integer values involved (≤ 32) float sqrt is exact enough to
  preserve the strict order, so the comparisons are modelled on the squared
  distances (`distSq`), which keeps every selection identical.
-/

inductive Height where
  | TALL | MEDIUM | SHORT | VERY_SHORT | NONE
deriving DecidableEq, Repr

def Height.value : Height → Nat
  | .TALL => 4
  | .MEDIUM => 3
  | .SHORT => 2
  | .VERY_SHORT => 1
  | .NONE => 0

def Height.enumName : Height → String
  | .TALL => "TALL"
  | .MEDIUM => "MEDIUM"
  | .SHORT => "SHORT"
  | .VERY_SHORT => "VERY_SHORT"
  | .NONE => "NONE"

/-- `Height[name]` lookup of the Python `Enum`; unknown names are a load-time
error, modelled as `none`. -/
def Height.fromName (s : String) : Option Height :=
  if s = "TALL" then some .TALL
  else if s = "MEDIUM" then some .MEDIUM
  else if s = "SHORT" then some .SHORT
  else if s = "VERY_SHORT" then some .VERY_SHORT
  else if s = "NONE" then some .NONE
  else none

inductive Stamina where
  | HIGH | MEDIUM | LOW | NONE
deriving DecidableEq, Repr

def Stamina.value : Stamina → Nat
  | .HIGH => 3
  | .MEDIUM => 2
  | .LOW => 1
  | .NONE => 0

def Stamina.enumName : Stamina → String
  | .HIGH => "HIGH"
  | .MEDIUM => "MEDIUM"
  | .LOW => "LOW"
  | .NONE => "NONE"

def Stamina.fromName (s : String) : Option Stamina :=
  if s = "HIGH" then some .HIGH
  else if s = "MEDIUM" then some .MEDIUM
  else if s = "LOW" then some .LOW
  else if s = "NONE" then some .NONE
  else none

/-- The immutable part of the `Server` dataclass of objects.py (everything but
the mutable `jobs_doing` counter, which is modelled as a separate map keyed by
`name`; see the header comment). -/
structure Server where
  name : String
  height : Height
  stamina : Stamina
  is_senior : Bool
  is_young : Bool
  is_older : Bool
deriving DecidableEq, Repr

/-- The `Job` dataclass of objects.py.  `younger_required` is declared `bool`
in the source, but main.py compares it with `== 1` and `== 2`, so the value
space actually used is {0, 1, 2} (Python's `True == 1`); it is therefore
modelled as a `Nat`, with `1` playing the role of `True`. -/
structure Job where
  name : String
  min_height : Height
  min_stamina : Stamina
  senior_required : Bool
  younger_required : Nat
  older_required : Bool
  requires_pair : Bool
deriving DecidableEq, Repr

/-- The squared Euclidean distance of `Suggestion.calculate_distance`; the
source takes `sqrt`, which is strictly monotone and hence irrelevant to every
`<` comparison made on distances (see the header comment). -/
def distSq (s1 s2 : Server) : Int :=
  (s1.height.value - s2.height.value : Int) ^ 2
    + (s1.stamina.value - s2.stamina.value : Int) ^ 2

/-- The `_suggestions` dict of a `Suggestion` of main.py: the three tier
lists.  (`job_name` and the `suggested` tuple are threaded separately where
needed.) -/
structure Suggestion where
  min : List Server
  med : List Server
  max : List Server
deriving DecidableEq, Repr

def Suggestion.empty : Suggestion := ⟨[], [], []⟩

/-- `Suggestion.add_server`: append to the `min` list unless already there. -/
def add_server (s : Server) (st : Suggestion) : Suggestion :=
  if s ∈ st.min then st else { st with min := st.min ++ [s] }

/-- `Suggestion.move_server`: in main.py this is only ever invoked with
`from_list = "min"`, `to_list = "med"` (the age promotion), so it is modelled
at that call site: if the server is in `min`, remove it there and append it to
`med`; otherwise do nothing. -/
def move_server_min_med (s : Server) (st : Suggestion) : Suggestion :=
  if s ∈ st.min then
    { st with min := st.min.erase s, med := st.med ++ [s] }
  else st

/-- `Suggestion.remove_server`: remove the server from the first of the three
tier lists containing it (the source `break`s after the first hit). -/
def remove_server (s : Server) (st : Suggestion) : Suggestion :=
  if s ∈ st.min then { st with min := st.min.erase s }
  else if s ∈ st.med then { st with med := st.med.erase s }
  else if s ∈ st.max then { st with max := st.max.erase s }
  else st

/-- All unordered pairs of a list in the double-loop order of
`Suggestion.pair` (`i` outer, `j = i+1..` inner). -/
def allPairs : List Server → List (Server × Server)
  | [] => []
  | x :: rest => rest.map (fun y => (x, y)) ++ allPairs rest

/-- `{server1, server2} not in previous_pairs[:remove_previous]` of
`Suggestion.pair`, negated: membership of the unordered pair among the first
`k` history entries (the source slices the FRONT of the list). -/
def pairExcluded (p : Server × Server) (prev : List (Server × Server)) (k : Nat) : Bool :=
  (prev.take k).any (fun q => (q.1 = p.1 ∧ q.2 = p.2) ∨ (q.1 = p.2 ∧ q.2 = p.1))

/-- One step of the per-tier minimum search of `Suggestion.pair`: keep the
candidate with the strictly smallest distance that is not excluded by the
previous-pair history (`distance < min_distance and ... not in ...`). -/
def bselect (prev : List (Server × Server)) (k : Nat)
    (acc : Option (Int × (Server × Server))) (p : Server × Server) :
    Option (Int × (Server × Server)) :=
  let d := distSq p.1 p.2
  let better : Bool :=
    match acc with
    | none => true
    | some (m, _) => decide (d < m)
  if better && !(pairExcluded p prev k) then some (d, p) else acc

/-- The per-tier scan of `Suggestion.pair`: minimum-distance non-excluded
pair of the tier, or `none` (`most_similar` stays `None`). -/
def bestPair (prev : List (Server × Server)) (k : Nat) (tier : List Server) :
    Option (Server × Server) :=
  ((allPairs tier).foldl (bselect prev k) none).map (fun x => x.2)

/-- The `for list_name in ("min", "med", "max")` loop of `Suggestion.pair`
with `store=True`: each tier whose scan finds a pair OVERWRITES
`self.suggested` (there is no `break`), so the last tier with a qualifying
pair wins. -/
def tierChosen (st : Suggestion) (prev : List (Server × Server)) (k : Nat) :
    Option (Server × Server) :=
  [st.min, st.med, st.max].foldl
    (fun acc tier =>
      match bestPair prev k tier with
      | some p => some p
      | none => acc)
    none

/-- First element of the first non-empty tier, as scanned by
`Suggestion.single` (min, then med, then max). -/
def singlePeek (st : Suggestion) : Option Server :=
  match st.min with
  | s :: _ => some s
  | [] =>
    match st.med with
    | s :: _ => some s
    | [] =>
      match st.max with
      | s :: _ => some s
      | [] => none

/-- `server.jobs_doing += 1` on the shared counter map. -/
def bump (s : Server) (jd : String → Nat) : String → Nat :=
  fun n => if n = s.name then jd n + 1 else jd n

/-- `Suggestion.single` with `store=True`: pick the head of the first
non-empty tier, increment its counter; if every tier is empty, `suggested`
stays the empty tuple (no error at this layer). -/
def singleStore (st : Suggestion) (jd : String → Nat) :
    List Server × (String → Nat) :=
  match singlePeek st with
  | some s => ([s], bump s jd)
  | none => ([], jd)

/-- How `Suggestion.pair` terminates abnormally: the `ValueError` raised at
the end when `suggested` is empty, or the `AttributeError` raised by
`calculate_distance(None, server2)` when `single(False)` returned `None`
(every tier empty) and the roster loop supplies a `server2`. -/
inductive PairErr where
  | valueError (jobName : String)
  | attrNoneError
deriving DecidableEq, Repr

/-- The roster-wide fallback scan of `Suggestion.pair` (`total < 2` branch):
minimum-distance server distinct from `server1` (`self.suggested` is still the
empty tuple at this point, so the `server2 in self.suggested` test never
fires). -/
def fallbackArgmin (s1 : Server) (servers : List Server) : Option Server :=
  (servers.foldl
    (fun acc s2 =>
      if s2 = s1 then acc
      else
        let d := distSq s1 s2
        let better : Bool :=
          match acc with
          | none => true
          | some (m, _) => decide (d < m)
        if better then some (d, s2) else acc)
    none).map (fun x => x.2)

/-- `Suggestion.pair` with `store=True` (the only configuration main.py ever
calls; the `store=False` early-return branches are unreachable from the
allocator and not modelled).  Returns the chosen pair and the updated counter
map, or the error the call raises.  Note the two quirks of the source it
reproduces faithfully:
* in the fallback branch, `most_similar.jobs_doing` is incremented at the
  moment the partner is found AND again by the common
  `for server in self.suggested` loop, so the partner is bumped twice;
* when every tier is empty, `single(False)` returns `None` and the first
  roster element reaches `calculate_distance(None, server2)`, which raises
  `AttributeError`, not the documented `ValueError` (a `ValueError` only
  happens if the roster loop body never runs, i.e. the roster is empty). -/
def pairStore (jobName : String) (st : Suggestion) (servers : List Server)
    (prev : List (Server × Server)) (k : Nat) (jd : String → Nat) :
    Except PairErr ((Server × Server) × (String → Nat)) :=
  let total := st.min.length + st.med.length + st.max.length
  if total < 2 then
    match singlePeek st with
    | none =>
      if servers.isEmpty then .error (.valueError jobName)
      else .error .attrNoneError
    | some s1 =>
      match fallbackArgmin s1 servers with
      | some m =>
        let jd1 := bump m jd
        let jd2 := bump m (bump s1 jd1)
        .ok ((s1, m), jd2)
      | none => .error (.valueError jobName)
  else
    match tierChosen st prev k with
    | some p => .ok (p, bump p.2 (bump p.1 jd))
    | none => .error (.valueError jobName)

/-! ## The candidate filter of `JobAllocator._logic` (main.py lines 299-335)

The filter is a sequence of primitive operations on the `Suggestion`
(`add_server` / `move_server` / `remove_server`), one batch per server per
pass, followed by the previous-suggestion removals.  It is represented as the
explicit list of those operations in execution order (`filterOps`), so that
the claims about "every point during the passes" can quantify over the
intermediate states (`statesFrom`). -/

/-- `server.jobs_doing == 0 and (not server.is_senior or job.senior_required)`
(first pass, line 307). -/
def p1cond (job : Job) (jd : String → Nat) (s : Server) : Bool :=
  (jd s.name == 0) && (!s.is_senior || job.senior_required)

/-- `server.height.value >= job.min_height.value and server.stamina.value >=
job.min_stamina.value` (second pass, lines 312-314). -/
def minreqB (job : Job) (s : Server) : Bool :=
  decide (job.min_height.value ≤ s.height.value)
    && decide (job.min_stamina.value ≤ s.stamina.value)

/-- The age-promotion condition of lines 317-322; note Python precedence:
`(yr==1 and young) or (yr==2 and young) or sr and senior or old_req and older`. -/
def moveCondB (job : Job) (s : Server) : Bool :=
  (job.younger_required == 1 && s.is_young)
    || (job.younger_required == 2 && s.is_young)
    || (job.senior_required && s.is_senior)
    || (job.older_required && s.is_older)

/-- `job.younger_required == 1 and not server.is_young` (line 325). -/
def rem1B (job : Job) (s : Server) : Bool :=
  job.younger_required == 1 && !s.is_young

/-- `job.younger_required == 2 and server.is_senior` (line 327). -/
def rem2B (job : Job) (s : Server) : Bool :=
  job.younger_required == 2 && s.is_senior

/-- `server.jobs_doing >= self.max_jobs and not (job.younger_required != 0 and
server.is_young)` (line 329). -/
def rem3B (job : Job) (jd : String → Nat) (maxJobs : Nat) (s : Server) : Bool :=
  decide (maxJobs ≤ jd s.name) && !(job.younger_required != 0 && s.is_young)

/-- One first-pass iteration (lines 306-308). -/
def pass1Step (job : Job) (jd : String → Nat) (s : Server) (st : Suggestion) :
    Suggestion :=
  if p1cond job jd s then add_server s st else st

def addOp (job : Job) (s : Server) (st : Suggestion) : Suggestion :=
  if minreqB job s then add_server s st else st

def moveOp (job : Job) (s : Server) (st : Suggestion) : Suggestion :=
  if moveCondB job s then move_server_min_med s st else st

def rem1Op (job : Job) (s : Server) (st : Suggestion) : Suggestion :=
  if rem1B job s then remove_server s st else st

def rem2Op (job : Job) (s : Server) (st : Suggestion) : Suggestion :=
  if rem2B job s then remove_server s st else st

def rem3Op (job : Job) (jd : String → Nat) (maxJobs : Nat) (s : Server)
    (st : Suggestion) : Suggestion :=
  if rem3B job jd maxJobs s then remove_server s st else st

/-- The five operations one second-pass iteration performs on the suggestion,
in source order (lines 310-330). -/
def perServer2 (job : Job) (jd : String → Nat) (maxJobs : Nat) (s : Server) :
    List (Suggestion → Suggestion) :=
  [addOp job s, moveOp job s, rem1Op job s, rem2Op job s,
   rem3Op job jd maxJobs s]

def pass1Ops (job : Job) (jd : String → Nat) (servers : List Server) :
    List (Suggestion → Suggestion) :=
  servers.map (fun s => pass1Step job jd s)

def pass2Ops (job : Job) (jd : String → Nat) (maxJobs : Nat)
    (servers : List Server) : List (Suggestion → Suggestion) :=
  servers.flatMap (perServer2 job jd maxJobs)

/-- The flattened list of servers removed by the previous-suggestion step
(lines 332-335): the first `remove_previous_suggestions - 1` stored tuples for
this job, guarded by `if self.remove_previous_suggestions:`. -/
def prevRemovals (k : Nat) (prevs : List (List Server)) : List Server :=
  if k = 0 then [] else (prevs.take (k - 1)).flatMap (fun t => t)

def step5Ops (k : Nat) (prevs : List (List Server)) :
    List (Suggestion → Suggestion) :=
  (prevRemovals k prevs).map (fun s => remove_server s)

def applyOps (st : Suggestion) (ops : List (Suggestion → Suggestion)) :
    Suggestion :=
  ops.foldl (fun st f => f st) st

/-- The full operation sequence of the candidate filter on an already-sorted
server list (`self.shuffle` off; the stable sort by the unchanged `jobs_doing`
keys is the identity on the orderings the theorems quantify over). -/
def filterOps (job : Job) (jd : String → Nat) (maxJobs : Nat) (k : Nat)
    (prevs : List (List Server)) (servers : List Server) :
    List (Suggestion → Suggestion) :=
  pass1Ops job jd servers ++ pass2Ops job jd maxJobs servers
    ++ step5Ops k prevs

/-- Run the filter's operations from an arbitrary starting suggestion (used
to state the re-classification claim). -/
def runFilterFrom (st : Suggestion) (job : Job) (jd : String → Nat)
    (maxJobs : Nat) (k : Nat) (prevs : List (List Server))
    (servers : List Server) : Suggestion :=
  applyOps st (filterOps job jd maxJobs k prevs servers)

/-- The candidate filter of `_logic`, from the fresh empty suggestion. -/
def runFilter (job : Job) (jd : String → Nat) (maxJobs : Nat) (k : Nat)
    (prevs : List (List Server)) (servers : List Server) : Suggestion :=
  runFilterFrom Suggestion.empty job jd maxJobs k prevs servers

/-- All states the suggestion passes through while a list of operations runs:
the starting state and the state after each operation. -/
def statesFrom (st : Suggestion) : List (Suggestion → Suggestion) → List Suggestion
  | [] => [st]
  | f :: fs => st :: statesFrom (f st) fs

/-- Every intermediate state of one run of the candidate filter. -/
def filterStates (job : Job) (jd : String → Nat) (maxJobs : Nat) (k : Nat)
    (prevs : List (List Server)) (servers : List Server) : List Suggestion :=
  statesFrom Suggestion.empty (filterOps job jd maxJobs k prevs servers)

/-! ## The round driver (`JobAllocator._logic` / `JobAllocator.main`) -/

/-- Stable insertion of `x` after all entries with a key `≤` its own
(Python's `list.sort` is stable). -/
def insertStable (key : Server → Nat) (x : Server) : List Server → List Server
  | [] => [x]
  | y :: ys => if key y ≤ key x then y :: insertStable key x ys else x :: y :: ys

/-- `servers.sort(key=lambda server: server.jobs_doing)` (line 304), as a
stable insertion sort on the counter map. -/
def sortByJd (jd : String → Nat) (servers : List Server) : List Server :=
  servers.foldl (fun acc s => insertStable (fun t => jd t.name) s acc) []

/-- The allocator state a round threads: the counter map, the cross-round
pair history, the per-job-name suggestion history and the roster order
(`_logic` sorts `self.servers` in place). -/
structure AllocState where
  jd : String → Nat
  prevPairs : List (Server × Server)
  prevSugg : String → List (List Server)
  servers : List Server

/-- `JobAllocator._logic` with `self.shuffle` off: sort the roster, run the
candidate filter, then pair (`requires_pair`) or single-select, and append the
chosen tuple to the histories.  `maxJobs` and `k` are
`self.max_jobs` / `self.remove_previous_suggestions`. -/
def logicModel (maxJobs k : Nat) (st : AllocState) (job : Job) :
    Except PairErr (List Server × AllocState) :=
  let servers := sortByJd st.jd st.servers
  let sugg := runFilter job st.jd maxJobs k (st.prevSugg job.name) servers
  if job.requires_pair then
    match pairStore job.name sugg servers st.prevPairs k st.jd with
    | .error e => .error e
    | .ok (p, jd') =>
      let chosen := [p.1, p.2]
      .ok (chosen,
        { jd := jd'
          prevPairs := st.prevPairs ++ [p]
          prevSugg := fun n =>
            if n = job.name then st.prevSugg n ++ [chosen] else st.prevSugg n
          servers := servers })
  else
    let (chosen, jd') := singleStore sugg st.jd
    .ok (chosen,
      { jd := jd'
        prevPairs := st.prevPairs
        prevSugg := fun n =>
          if n = job.name then st.prevSugg n ++ [chosen] else st.prevSugg n
        servers := servers })

/-- `ceil(len(self.servers) / len(self.jobs))` for a non-empty job list. -/
def ceilDiv (a b : Nat) : Nat := (a + b - 1) / b

/-- The quota `JobAllocator.main` actually uses: the constructor sets
`self.max_jobs = 2`; `main` recomputes it as `ceil(workers / jobs)` (floored
at 1) ONLY when `self.max_jobs_override` is falsy — a truthy override leaves
the constant `2` in place and never assigns the override's own value. -/
def mainMaxJobs (override nServers nJobs : Nat) : Nat :=
  if override = 0 then
    let m := ceilDiv nServers nJobs
    if m = 0 then 1 else m
  else 2

/-- The per-job results and final counters of one round. -/
structure RoundResult where
  chosen : List (String × List Server)
  final : AllocState

/-- One round of `JobAllocator.main` for a freshly constructed allocator
(empty histories): reset every counter to 0, fix the quota, then run `_logic`
for each job in order, collecting the chosen tuples.  A pairing error aborts
the round, as in the source. -/
def mainModel (override k : Nat) (servers : List Server) (jobs : List Job) :
    Except PairErr RoundResult :=
  let mj := mainMaxJobs override servers.length jobs.length
  let st0 : AllocState :=
    { jd := fun _ => 0, prevPairs := [], prevSugg := fun _ => [],
      servers := servers }
  (jobs.foldlM
    (fun (acc : List (String × List Server) × AllocState) job => do
      let (chosen, st') ← logicModel mj k acc.2 job
      pure (acc.1 ++ [(job.name, chosen)], st'))
    ([], st0)).map
    (fun (acc : List (String × List Server) × AllocState) =>
      RoundResult.mk acc.1 acc.2)

/-! ## The serialized entity model (objects.py) -/

/-- A JSON scalar as produced by `dataclasses.asdict` plus the enum-name
substitution of `to_json`. -/
inductive JVal where
  | str (s : String)
  | bool (b : Bool)
  | nat (n : Nat)
deriving DecidableEq, Repr

def JVal.asStr : JVal → Option String
  | .str s => some s
  | _ => none

def JVal.asBool : JVal → Option Bool
  | .bool b => some b
  | _ => none

def JVal.asNat : JVal → Option Nat
  | .nat n => some n
  | _ => none

def lookupJ (key : String) (l : List (String × JVal)) : Option JVal :=
  (l.find? (fun kv => kv.1 == key)).map (fun kv => kv.2)

/-- The full `Server` dataclass of objects.py, `jobs_doing` included, used for
the serialization and equality/hash claims. -/
structure ServerRec where
  name : String
  height : Height
  stamina : Stamina
  is_senior : Bool
  is_young : Bool
  is_older : Bool
  jobs_doing : Nat
deriving DecidableEq, Repr

/-- `Server.to_json`: `asdict`, enum fields replaced by their names, and the
`jobs_doing` key deleted. -/
def ServerRec.to_json (r : ServerRec) : List (String × JVal) :=
  [("name", .str r.name),
   ("height", .str r.height.enumName),
   ("stamina", .str r.stamina.enumName),
   ("is_senior", .bool r.is_senior),
   ("is_young", .bool r.is_young),
   ("is_older", .bool r.is_older)]

/-- `Server.from_json`: enum names looked up (`Height[...]` — unknown names
fail), remaining fields taken as-is, `jobs_doing` restored to its dataclass
default `0`. -/
def ServerRec.from_json (l : List (String × JVal)) : Option ServerRec := do
  let name ← (lookupJ "name" l).bind JVal.asStr
  let height ← ((lookupJ "height" l).bind JVal.asStr).bind Height.fromName
  let stamina ← ((lookupJ "stamina" l).bind JVal.asStr).bind Stamina.fromName
  let seniorF ← (lookupJ "is_senior" l).bind JVal.asBool
  let youngF ← (lookupJ "is_young" l).bind JVal.asBool
  let olderF ← (lookupJ "is_older" l).bind JVal.asBool
  pure ⟨name, height, stamina, seniorF, youngF, olderF, 0⟩

/-- `Job.to_json`: `asdict` with the two enum fields replaced by their
names. -/
def Job.to_json (j : Job) : List (String × JVal) :=
  [("name", .str j.name),
   ("min_height", .str j.min_height.enumName),
   ("min_stamina", .str j.min_stamina.enumName),
   ("senior_required", .bool j.senior_required),
   ("younger_required", .nat j.younger_required),
   ("older_required", .bool j.older_required),
   ("requires_pair", .bool j.requires_pair)]

/-- `Job.from_json`. -/
def Job.from_json (l : List (String × JVal)) : Option Job := do
  let name ← (lookupJ "name" l).bind JVal.asStr
  let mh ← ((lookupJ "min_height" l).bind JVal.asStr).bind Height.fromName
  let ms ← ((lookupJ "min_stamina" l).bind JVal.asStr).bind Stamina.fromName
  let sr ← (lookupJ "senior_required" l).bind JVal.asBool
  let yr ← (lookupJ "younger_required" l).bind JVal.asNat
  let orq ← (lookupJ "older_required" l).bind JVal.asBool
  let rp ← (lookupJ "requires_pair" l).bind JVal.asBool
  pure ⟨name, mh, ms, sr, yr, orq, rp⟩

/-- The `__eq__` the `@dataclass` decorator generates for `Server`: the tuple
of ALL fields compared componentwise (`jobs_doing` included — objects.py does
not override `__eq__`, only `__hash__`). -/
def pyEq (a b : ServerRec) : Bool :=
  (a.name == b.name) && (a.height == b.height) && (a.stamina == b.stamina)
    && (a.is_senior == b.is_senior) && (a.is_young == b.is_young)
    && (a.is_older == b.is_older) && (a.jobs_doing == b.jobs_doing)

/-- The explicit `Server.__hash__`: `hash(self.name)` — the hash key is the
name alone. -/
def pyHashKey (a : ServerRec) : String := a.name

/-! ## Spec-side notions used to compare code behavior with the claims -/

/-- Modelled from the spec: the "most recent `k` entries of `previous_pairs`
(those appended last)" — the history is appended chronologically, so these are
the LAST `k` list entries. -/
def recentPairs (prev : List (Server × Server)) (k : Nat) :
    List (Server × Server) :=
  prev.drop (prev.length - k)

/-- Modelled from the spec: unordered membership of a pair among the most
recent `k` history entries. -/
def pairInRecent (p : Server × Server) (prev : List (Server × Server))
    (k : Nat) : Bool :=
  (recentPairs prev k).any
    (fun q => (q.1 = p.1 ∧ q.2 = p.2) ∨ (q.1 = p.2 ∧ q.2 = p.1))

/-! ## Concrete scenario data -/

def wkA : Server := ⟨"A", .TALL, .HIGH, false, false, false⟩
def wkB : Server := ⟨"B", .TALL, .MEDIUM, false, false, false⟩
def wkC : Server := ⟨"C", .VERY_SHORT, .LOW, false, false, false⟩
def wkD : Server := ⟨"D", .SHORT, .HIGH, false, false, false⟩
def wkE : Server := ⟨"E", .TALL, .HIGH, false, false, false⟩
def wkX : Server := ⟨"X", .MEDIUM, .MEDIUM, false, false, false⟩
def wkY : Server := ⟨"Y", .SHORT, .LOW, false, false, false⟩
def wkZ : Server := ⟨"Z", .NONE, .NONE, false, false, false⟩

/-- A young non-senior worker (used by the round scenario). -/
def wkYoung : Server := ⟨"A", .TALL, .HIGH, false, true, false⟩

/-- A plain worker, neither young nor senior. -/
def wkPlain : Server := ⟨"B", .MEDIUM, .MEDIUM, false, false, false⟩

/-- A senior worker. -/
def wkSenior : Server := ⟨"S", .TALL, .HIGH, true, false, false⟩

/-- A worker that is both senior and young (the age flags are
independently-settable booleans). -/
def wkSeniorYoung : Server := ⟨"SY", .TALL, .HIGH, true, true, false⟩

/-- A pair-required job with `younger_required = 1` (i.e. `True`) and no
attribute minimums. -/
def jobYoungPair : Job := ⟨"J", .NONE, .NONE, false, 1, false, true⟩

/-- A single job with `younger_required = 1` and no attribute minimums. -/
def jobYoungSingle : Job := ⟨"Y1", .NONE, .NONE, false, 1, false, false⟩

/-- A single job with `senior_required` set and no attribute minimums. -/
def jobSeniorReq : Job := ⟨"K", .NONE, .NONE, true, 0, false, false⟩

/-- The all-zero counter map every round starts from. -/
def jdZero : String → Nat := fun _ => 0

/-! ## C1 -/

/-- C1, counterexample: tiers `min = [A, B]`, `med = [C, E]`, empty history.
The pair `(A, B)` is a qualifying tier_min pair of strictly SMALLER distance
than `(C, E)`, yet `Suggestion.pair` (store mode, as `_logic` calls it)
returns the tier_med pair `(C, E)`, because the tier loop has no `break` and a
later tier's result overwrites `self.suggested`.  So the chosen pair is not a
pair of tier_min at all, refuting the claim that tier_min priority dominates
distance. -/
theorem C1_counterexample :
    tierChosen ⟨[wkA, wkB], [wkC, wkE], []⟩ [] 2 = some (wkC, wkE)
      ∧ ((wkA, wkB) ∈ allPairs [wkA, wkB]
          ∧ pairExcluded (wkA, wkB) [] 2 = false)
      ∧ distSq wkA wkB < distSq wkC wkE
      ∧ wkC ∉ [wkA, wkB] ∧ wkE ∉ [wkA, wkB] := by
  decide

/-! ## C3 -/

/-- C3, code behavior at the failing input: history
`[(X,Y), (X,Z), (A,B)]` with `k = 2`.  The code excludes
`previous_pairs[:2] = [(X,Y), (X,Z)]` — the OLDEST two entries — so it happily
returns `(A, B)`, which sits among the most recent 2 entries, even though the
alternative pair `(C, D)` of the same tier is not in the most recent 2.  The
claim (exclude the most recent `k` entries) is what the history's append-only
growth requires; slicing the front is the slip. -/
theorem C3_code_eval :
    tierChosen ⟨[wkA, wkB, wkC, wkD], [], []⟩ [(wkX, wkY), (wkX, wkZ), (wkA, wkB)] 2
        = some (wkA, wkB)
      ∧ pairInRecent (wkA, wkB) [(wkX, wkY), (wkX, wkZ), (wkA, wkB)] 2 = true
      ∧ ((wkC, wkD) ∈ allPairs [wkA, wkB, wkC, wkD]
          ∧ pairInRecent (wkC, wkD) [(wkX, wkY), (wkX, wkZ), (wkA, wkB)] 2 = false) := by
  decide

/-! ## C4 -/

/-- C4, code behavior at the failing input: every tier empty and a non-empty
roster.  `single(False)` returns `None`, the roster loop calls
`calculate_distance(None, server2)`, and the call dies with `AttributeError`
— not the documented domain `ValueError` "No pair found for job ...". -/
theorem C4_code_eval :
    pairStore "J" Suggestion.empty [wkA] [] 2 jdZero
      = Except.error PairErr.attrNoneError := by
  rfl

/-! ## C2 -/

/-- C2, code behavior at the failing input: roster `[A (young), B]`, the
single pair-required job `jobYoungPair` with `younger_required = 1`.  The
filter leaves only `A` in the tiers (B is removed as not young), so the
fallback pairing path runs: `B.jobs_doing` is incremented when `B` is found
as `most_similar` AND again by the `for server in self.suggested` loop.
After the round, `B`'s counter is 2 although `B` occurs in exactly one chosen
tuple (and `A`, incremented once, is consistent). -/
theorem C2_round_eval :
    (mainModel 0 2 [wkYoung, wkPlain] [jobYoungPair]).map
        (fun r =>
          ((r.final.jd "A", r.chosen.countP (fun c => decide (wkYoung ∈ c.2))),
           (r.final.jd "B", r.chosen.countP (fun c => decide (wkPlain ∈ c.2)))))
      = Except.ok ((1, 1), (2, 1)) := by
  rfl

/-! ## C10 -/

/-- C10: with any truthy `max_jobs_override`, the quota used by `main` is the
constant `2` assigned in the constructor — the override's numeric value is
never assigned to the quota and the `ceil(workers/jobs)` recomputation is
skipped, whatever the roster and job counts are. -/
theorem C10_override_quota (override nServers nJobs : Nat)
    (h : override ≠ 0) : mainMaxJobs override nServers nJobs = 2 := by
  simp [mainMaxJobs, h]

/-- C10, witness: override 5 (a value distinct from 2) with 10 workers and 3
jobs, where the ceil formula would give 4. -/
theorem C10_override_quota_witness :
    (5 : Nat) ≠ 0 ∧ mainMaxJobs 5 10 3 = 2 :=
  ⟨by decide, C10_override_quota 5 10 3 (by decide)⟩

/-! ## C8 -/

/-- C8, counterexample: two `Server` records with the same name but different
size-classes.  The dataclass-generated `__eq__` compares every field, so they
are NOT equal, although their hashes (name-based) coincide — refuting
"equal iff same name". -/
theorem C8_counterexample :
    pyEq ⟨"A", .TALL, .HIGH, false, false, false, 0⟩
        ⟨"A", .SHORT, .HIGH, false, false, false, 0⟩ = false
      ∧ pyHashKey ⟨"A", .TALL, .HIGH, false, false, false, 0⟩
          = pyHashKey ⟨"A", .SHORT, .HIGH, false, false, false, 0⟩ := by
  decide

/-- C8, amended: Python equality of two workers is componentwise equality of
ALL fields (name, size-class, endurance-class, the three age flags and the
job counter), i.e. it coincides with structural record equality; equality
implies hash equality (same name), but same-named workers need not be equal. -/
theorem C8_amended (a b : ServerRec) :
    (pyEq a b = true ↔ a = b)
      ∧ (pyEq a b = true → pyHashKey a = pyHashKey b) := by
  constructor
  · constructor
    · intro h
      obtain ⟨n1, h1, s1, x1, y1, z1, j1⟩ := a
      obtain ⟨n2, h2, s2, x2, y2, z2, j2⟩ := b
      simp only [pyEq, Bool.and_eq_true, beq_iff_eq] at h
      simp_all
    · intro h
      subst h
      obtain ⟨n1, h1, s1, x1, y1, z1, j1⟩ := a
      simp [pyEq]
  · intro h
    obtain ⟨n1, h1, s1, x1, y1, z1, j1⟩ := a
    obtain ⟨n2, h2, s2, x2, y2, z2, j2⟩ := b
    simp only [pyEq, Bool.and_eq_true, beq_iff_eq] at h
    simpa [pyHashKey] using h.1.1.1.1.1.1

/-- C8, witness for the amended statement: a concrete pair of equal workers,
with the hypothesis of the equality-implies-hash-equality part discharged. -/
theorem C8_amended_witness :
    pyEq ⟨"A", .TALL, .HIGH, false, false, false, 0⟩
        ⟨"A", .TALL, .HIGH, false, false, false, 0⟩ = true
      ∧ pyHashKey ⟨"A", .TALL, .HIGH, false, false, false, 0⟩
          = pyHashKey ⟨"A", .TALL, .HIGH, false, false, false, 0⟩ :=
  ⟨by decide,
   (C8_amended ⟨"A", .TALL, .HIGH, false, false, false, 0⟩
      ⟨"A", .TALL, .HIGH, false, false, false, 0⟩).2 (by decide)⟩

/-! ## C9 -/

lemma height_fromName_enumName (h : Height) :
    Height.fromName h.enumName = some h := by
  cases h <;> rfl

lemma stamina_fromName_enumName (s : Stamina) :
    Stamina.fromName s.enumName = some s := by
  cases s <;> rfl

lemma serverRec_round_trip (r : ServerRec) (h : r.jobs_doing = 0) :
    ServerRec.from_json r.to_json = some r := by
  obtain ⟨n, hh, ss, b1, b2, b3, jd⟩ := r
  simp only at h
  subst h
  simp [ServerRec.from_json, ServerRec.to_json, lookupJ, List.find?,
    JVal.asStr, JVal.asBool, height_fromName_enumName,
    stamina_fromName_enumName, Option.bind]

lemma job_round_trip (j : Job) : Job.from_json j.to_json = some j := by
  obtain ⟨n, mh, ms, sr, yr, orq, rp⟩ := j
  simp [Job.from_json, Job.to_json, lookupJ, List.find?, JVal.asStr,
    JVal.asBool, JVal.asNat, height_fromName_enumName,
    stamina_fromName_enumName, Option.bind]

/-- C9: serializing a worker whose `jobs_assigned` counter is 0 and then
deserializing returns the very same record (the enum-name strings round-trip
exactly), the serialized worker dictionary contains no `jobs_doing` key, and
every job record round-trips likewise. -/
theorem C9_round_trip (r : ServerRec) (j : Job) (h : r.jobs_doing = 0) :
    ServerRec.from_json r.to_json = some r
      ∧ lookupJ "jobs_doing" r.to_json = none
      ∧ Job.from_json j.to_json = some j := by
  refine ⟨serverRec_round_trip r h, ?_, job_round_trip j⟩
  obtain ⟨n, hh, ss, b1, b2, b3, jd⟩ := r
  simp [ServerRec.to_json, lookupJ, List.find?]

/-- C9, witness: a concrete worker record with counter 0 and a concrete job
record, round-tripped. -/
theorem C9_round_trip_witness :
    (ServerRec.jobs_doing ⟨"N", .SHORT, .LOW, true, false, true, 0⟩ = 0)
      ∧ (ServerRec.from_json
            (ServerRec.to_json ⟨"N", .SHORT, .LOW, true, false, true, 0⟩)
          = some ⟨"N", .SHORT, .LOW, true, false, true, 0⟩
        ∧ lookupJ "jobs_doing"
            (ServerRec.to_json ⟨"N", .SHORT, .LOW, true, false, true, 0⟩)
          = none
        ∧ Job.from_json (Job.to_json ⟨"J", .TALL, .HIGH, true, 2, false, true⟩)
          = some ⟨"J", .TALL, .HIGH, true, 2, false, true⟩) :=
  ⟨rfl,
   C9_round_trip ⟨"N", .SHORT, .LOW, true, false, true, 0⟩
     ⟨"J", .TALL, .HIGH, true, 2, false, true⟩ rfl⟩

/-! ## C1, amended: properties of the per-tier argmin scan -/

lemma bselect_fold_mem (prev : List (Server × Server)) (k : Nat) :
    ∀ (pairs : List (Server × Server)) (acc : Option (Int × (Server × Server)))
      (d : Int) (p : Server × Server),
      pairs.foldl (bselect prev k) acc = some (d, p) →
        (p ∈ pairs ∧ pairExcluded p prev k = false ∧ d = distSq p.1 p.2)
          ∨ acc = some (d, p) := by
  intro pairs
  induction pairs with
  | nil => intro acc d p h; right; simpa using h
  | cons x rest ih =>
    intro acc d p h
    simp only [List.foldl_cons] at h
    rcases ih (bselect prev k acc x) d p h with h1 | h2
    · exact Or.inl ⟨List.mem_cons_of_mem _ h1.1, h1.2⟩
    · simp only [bselect] at h2
      split at h2
      · rename_i hcond
        obtain ⟨rfl, rfl⟩ : distSq x.1 x.2 = d ∧ x = p := by
          constructor <;> [exact congrArg Prod.fst (Option.some.inj h2);
            exact congrArg Prod.snd (Option.some.inj h2)]
        refine Or.inl ⟨List.mem_cons_self _ _, ?_, rfl⟩
        have := (Bool.and_eq_true _ _).mp hcond
        simpa using this.2
      · exact Or.inr h2

lemma bselect_fold_mono (prev : List (Server × Server)) (k : Nat) :
    ∀ (pairs : List (Server × Server)) (acc : Option (Int × (Server × Server)))
      (d : Int) (p : Server × Server) (d0 : Int) (p0 : Server × Server),
      pairs.foldl (bselect prev k) acc = some (d, p) →
        acc = some (d0, p0) → d ≤ d0 := by
  intro pairs
  induction pairs with
  | nil =>
    intro acc d p d0 p0 h hacc
    subst hacc
    simp only [List.foldl_nil, Option.some.injEq, Prod.mk.injEq] at h
    exact le_of_eq h.1.symm
  | cons x rest ih =>
    intro acc d p d0 p0 h hacc
    subst hacc
    simp only [List.foldl_cons] at h
    by_cases hcond :
        (decide (distSq x.1 x.2 < d0) && !pairExcluded x prev k) = true
    · have hstep : bselect prev k (some (d0, p0)) x = some (distSq x.1 x.2, x) := by
        simp only [bselect]
        rw [if_pos hcond]
      rw [hstep] at h
      have hlt : distSq x.1 x.2 < d0 := by
        have := (Bool.and_eq_true _ _).mp hcond
        simpa using this.1
      exact le_of_lt (lt_of_le_of_lt (ih _ d p _ x h rfl) hlt)
    · have hstep : bselect prev k (some (d0, p0)) x = some (d0, p0) := by
        simp only [bselect]
        rw [if_neg (by simpa using hcond)]
      rw [hstep] at h
      exact ih _ d p d0 p0 h rfl

lemma bselect_fold_min (prev : List (Server × Server)) (k : Nat) :
    ∀ (pairs : List (Server × Server)) (acc : Option (Int × (Server × Server)))
      (d : Int) (p : Server × Server),
      pairs.foldl (bselect prev k) acc = some (d, p) →
        ∀ q ∈ pairs, pairExcluded q prev k = false → d ≤ distSq q.1 q.2 := by
  intro pairs
  induction pairs with
  | nil => intro acc d p _ q hq; exact absurd hq (List.not_mem_nil q)
  | cons x rest ih =>
    intro acc d p h q hq hqex
    simp only [List.foldl_cons] at h
    rcases List.mem_cons.mp hq with rfl | hq2
    · -- the head pair itself: the accumulator right after it is at most its
      -- distance, and the fold result only decreases from there
      cases hacc : acc with
      | none =>
        have hstep : bselect prev k none q = some (distSq q.1 q.2, q) := by
          simp only [bselect]
          rw [if_pos (by simp [hqex])]
        rw [hacc, hstep] at h
        exact bselect_fold_mono prev k rest _ d p _ q h rfl
      | some v =>
        obtain ⟨d0, p0⟩ := v
        by_cases hlt : distSq q.1 q.2 < d0
        · have hstep : bselect prev k (some (d0, p0)) q
              = some (distSq q.1 q.2, q) := by
            simp only [bselect]
            rw [if_pos (by simp [hqex, hlt])]
          rw [hacc, hstep] at h
          exact bselect_fold_mono prev k rest _ d p _ q h rfl
        · have hstep : bselect prev k (some (d0, p0)) q = some (d0, p0) := by
            simp only [bselect]
            rw [if_neg (by simp [hlt])]
          rw [hacc, hstep] at h
          exact le_trans (bselect_fold_mono prev k rest _ d p _ p0 h rfl)
            (not_lt.mp hlt)
    · exact ih _ d p h q hq2 hqex

/-- C1, amended: the tier loop of `Suggestion.pair` in store mode scans min,
med, max WITHOUT a break, so the last tier with a qualifying pair wins (tier
priority is the reverse of the claim).  The tier_min pair is returned
precisely when tier_med and tier_max yield no qualifying pair, and in that
case it is a minimum-distance qualifying pair of tier_min: it belongs to
tier_min's pair list, is not excluded by the history slice, and its distance
is at most that of every other non-excluded tier_min pair. -/
theorem C1_min_tier_pair (st : Suggestion) (prev : List (Server × Server))
    (k : Nat) (p : Server × Server)
    (hmed : bestPair prev k st.med = none)
    (hmax : bestPair prev k st.max = none)
    (hchosen : tierChosen st prev k = some p) :
    (p ∈ allPairs st.min ∧ pairExcluded p prev k = false)
      ∧ ∀ q ∈ allPairs st.min, pairExcluded q prev k = false →
          distSq p.1 p.2 ≤ distSq q.1 q.2 := by
  have hbp : bestPair prev k st.min = some p := by
    simp only [tierChosen, List.foldl, hmed, hmax] at hchosen
    cases hmin : bestPair prev k st.min with
    | none => rw [hmin] at hchosen; exact absurd hchosen (by simp)
    | some p' => rw [hmin] at hchosen; simpa using hchosen
  simp only [bestPair, Option.map_eq_some'] at hbp
  obtain ⟨⟨d, p'⟩, hfold, hp⟩ := hbp
  simp only at hp
  subst hp
  have hmem := bselect_fold_mem prev k (allPairs st.min) none d p' hfold
  rcases hmem with ⟨h1, h2, h3⟩ | habs
  · refine ⟨⟨h1, h2⟩, ?_⟩
    intro q hq hqex
    rw [← h3]
    exact bselect_fold_min prev k (allPairs st.min) none d p' hfold q hq hqex
  · exact absurd habs (by simp)

/-- C1, witness for the amended statement: tier_min `[A, B]`, empty med and
max tiers, empty history — the chosen pair is the (unique, hence minimal)
tier_min pair. -/
theorem C1_min_tier_pair_witness :
    bestPair ([] : List (Server × Server)) 2 ([] : List Server) = none
      ∧ tierChosen ⟨[wkA, wkB], [], []⟩ [] 2 = some (wkA, wkB)
      ∧ ((wkA, wkB) ∈ allPairs [wkA, wkB]
          ∧ pairExcluded (wkA, wkB) [] 2 = false) :=
  ⟨rfl, rfl,
   (C1_min_tier_pair ⟨[wkA, wkB], [], []⟩ [] 2 (wkA, wkB) rfl rfl rfl).1⟩

/-! ## Tier invariants of the candidate filter -/

/-- No worker is a member of two of the three tier lists. -/
def TiersDisjoint (st : Suggestion) : Prop :=
  (∀ s ∈ st.min, s ∉ st.med ∧ s ∉ st.max) ∧ (∀ s ∈ st.med, s ∉ st.max)

/-- The working invariant: disjoint tiers, each without duplicates. -/
def StInv (st : Suggestion) : Prop :=
  TiersDisjoint st ∧ st.min.Nodup ∧ st.med.Nodup ∧ st.max.Nodup

/-- Absence from every tier. -/
def notInTiers (s : Server) (st : Suggestion) : Prop :=
  s ∉ st.min ∧ s ∉ st.med ∧ s ∉ st.max

instance (st : Suggestion) : Decidable (TiersDisjoint st) := by
  unfold TiersDisjoint; infer_instance

instance (st : Suggestion) : Decidable (StInv st) := by
  unfold StInv; infer_instance

lemma tiersDisjoint_of_empty {st : Suggestion} (hmed : st.med = [])
    (hmax : st.max = []) : TiersDisjoint st := by
  constructor
  · intro s _
    simp [hmed, hmax]
  · intro s hs
    simp [hmed] at hs

lemma add_server_med (s : Server) (st : Suggestion) :
    (add_server s st).med = st.med := by
  unfold add_server; split <;> rfl

lemma add_server_max (s : Server) (st : Suggestion) :
    (add_server s st).max = st.max := by
  unfold add_server; split <;> rfl

lemma add_server_min_mem {t s : Server} {st : Suggestion}
    (h : t ∈ (add_server s st).min) : t ∈ st.min ∨ t = s := by
  unfold add_server at h
  split at h
  · exact Or.inl h
  · rcases List.mem_append.mp h with h1 | h1
    · exact Or.inl h1
    · exact Or.inr (List.mem_singleton.mp h1)

lemma add_server_StInv {s : Server} {st : Suggestion} (h : StInv st)
    (hmed : s ∉ st.med) (hmax : s ∉ st.max) : StInv (add_server s st) := by
  obtain ⟨⟨hd1, hd2⟩, hn1, hn2, hn3⟩ := h
  unfold add_server
  split
  · exact ⟨⟨hd1, hd2⟩, hn1, hn2, hn3⟩
  · rename_i hsmin
    refine ⟨⟨?_, ?_⟩, ?_, hn2, hn3⟩
    · intro t ht
      rcases List.mem_append.mp ht with h1 | h1
      · exact hd1 t h1
      · rw [List.mem_singleton.mp h1]; exact ⟨hmed, hmax⟩
    · exact hd2
    · exact List.nodup_append.mpr ⟨hn1, List.nodup_singleton s,
        by intro t ht hts; exact hsmin (List.mem_singleton.mp hts ▸ ht)⟩

lemma move_server_max (s : Server) (st : Suggestion) :
    (move_server_min_med s st).max = st.max := by
  unfold move_server_min_med; split <;> rfl

lemma move_server_min_mem {t s : Server} {st : Suggestion}
    (h : t ∈ (move_server_min_med s st).min) : t ∈ st.min := by
  unfold move_server_min_med at h
  split at h
  · exact List.mem_of_mem_erase h
  · exact h

lemma move_server_med_mem {t s : Server} {st : Suggestion}
    (h : t ∈ (move_server_min_med s st).med) : t ∈ st.med ∨ t = s := by
  unfold move_server_min_med at h
  split at h
  · rcases List.mem_append.mp h with h1 | h1
    · exact Or.inl h1
    · exact Or.inr (List.mem_singleton.mp h1)
  · exact Or.inl h

lemma move_server_StInv {s : Server} {st : Suggestion} (h : StInv st)
    (hmax : s ∉ st.max) : StInv (move_server_min_med s st) := by
  obtain ⟨⟨hd1, hd2⟩, hn1, hn2, hn3⟩ := h
  unfold move_server_min_med
  split
  · rename_i hsmin
    have hsmed : s ∉ st.med := (hd1 s hsmin).1
    refine ⟨⟨?_, ?_⟩, hn1.erase s, ?_, hn3⟩
    · intro t ht
      have htmin : t ∈ st.min := List.mem_of_mem_erase ht
      have hts : t ≠ s := (List.Nodup.mem_erase_iff hn1).mp ht |>.1
      refine ⟨?_, (hd1 t htmin).2⟩
      intro hc
      rcases List.mem_append.mp hc with h1 | h1
      · exact (hd1 t htmin).1 h1
      · exact hts (List.mem_singleton.mp h1)
    · intro t ht
      rcases List.mem_append.mp ht with h1 | h1
      · exact hd2 t h1
      · rw [List.mem_singleton.mp h1]; exact hmax
    · exact List.nodup_append.mpr ⟨hn2, List.nodup_singleton s,
        by intro t ht hts; exact hsmed (List.mem_singleton.mp hts ▸ ht)⟩
  · exact ⟨⟨hd1, hd2⟩, hn1, hn2, hn3⟩

lemma remove_server_min_mem {t s : Server} {st : Suggestion}
    (h : t ∈ (remove_server s st).min) : t ∈ st.min := by
  unfold remove_server at h
  split at h
  · exact List.mem_of_mem_erase h
  · split at h
    · exact h
    · split at h <;> exact h

lemma remove_server_med_mem {t s : Server} {st : Suggestion}
    (h : t ∈ (remove_server s st).med) : t ∈ st.med := by
  unfold remove_server at h
  split at h
  · exact h
  · split at h
    · exact List.mem_of_mem_erase h
    · split at h <;> exact h

lemma remove_server_max_mem {t s : Server} {st : Suggestion}
    (h : t ∈ (remove_server s st).max) : t ∈ st.max := by
  unfold remove_server at h
  split at h
  · exact h
  · split at h
    · exact h
    · split at h
      · exact List.mem_of_mem_erase h
      · exact h

lemma remove_server_StInv {s : Server} {st : Suggestion} (h : StInv st) :
    StInv (remove_server s st) := by
  obtain ⟨⟨hd1, hd2⟩, hn1, hn2, hn3⟩ := h
  unfold remove_server
  split
  · exact ⟨⟨fun t ht => hd1 t (List.mem_of_mem_erase ht), hd2⟩,
      hn1.erase s, hn2, hn3⟩
  · split
    · exact ⟨⟨fun t ht => ⟨fun hc => (hd1 t ht).1 (List.mem_of_mem_erase hc),
        (hd1 t ht).2⟩, fun t ht => hd2 t (List.mem_of_mem_erase ht)⟩,
        hn1, hn2.erase s, hn3⟩
    · split
      · exact ⟨⟨fun t ht => ⟨(hd1 t ht).1,
          fun hc => (hd1 t ht).2 (List.mem_of_mem_erase hc)⟩,
          fun t ht hc => hd2 t ht (List.mem_of_mem_erase hc)⟩,
          hn1, hn2, hn3.erase s⟩
      · exact ⟨⟨hd1, hd2⟩, hn1, hn2, hn3⟩

/-- Removing a server from a suggestion with disjoint duplicate-free tiers
leaves it in no tier. -/
lemma remove_server_gone {s : Server} {st : Suggestion} (h : StInv st) :
    notInTiers s (remove_server s st) := by
  obtain ⟨⟨hd1, hd2⟩, hn1, hn2, hn3⟩ := h
  unfold remove_server notInTiers
  split
  · rename_i hs
    exact ⟨fun hc => ((List.Nodup.mem_erase_iff hn1).mp hc).1 rfl,
      (hd1 s hs).1, (hd1 s hs).2⟩
  · rename_i hs
    split
    · rename_i hs2
      exact ⟨hs, fun hc => ((List.Nodup.mem_erase_iff hn2).mp hc).1 rfl,
        hd2 s hs2⟩
    · rename_i hs2
      split
      · rename_i hs3
        exact ⟨hs, hs2,
          fun hc => ((List.Nodup.mem_erase_iff hn3).mp hc).1 rfl⟩
      · rename_i hs3
        exact ⟨hs, hs2, hs3⟩

lemma applyOps_nil (st : Suggestion) : applyOps st [] = st := rfl

lemma applyOps_cons (st : Suggestion) (f : Suggestion → Suggestion)
    (fs : List (Suggestion → Suggestion)) :
    applyOps st (f :: fs) = applyOps (f st) fs := rfl

lemma applyOps_append (st : Suggestion) (l1 l2 : List (Suggestion → Suggestion)) :
    applyOps st (l1 ++ l2) = applyOps (applyOps st l1) l2 := by
  unfold applyOps
  exact List.foldl_append _ _ l1 l2

lemma self_mem_statesFrom (st : Suggestion)
    (ops : List (Suggestion → Suggestion)) : st ∈ statesFrom st ops := by
  cases ops <;> simp [statesFrom]

lemma mem_statesFrom_append :
    ∀ (l1 l2 : List (Suggestion → Suggestion)) (st x : Suggestion),
      x ∈ statesFrom st (l1 ++ l2) →
        x ∈ statesFrom st l1 ∨ x ∈ statesFrom (applyOps st l1) l2 := by
  intro l1
  induction l1 with
  | nil => intro l2 st x h; exact Or.inr (by simpa [applyOps] using h)
  | cons f fs ih =>
    intro l2 st x h
    simp only [List.cons_append, statesFrom, List.mem_cons] at h
    rcases h with rfl | h2
    · exact Or.inl (self_mem_statesFrom x (f :: fs))
    · rcases ih l2 (f st) x h2 with h3 | h3
      · exact Or.inl (by simp [statesFrom, h3])
      · exact Or.inr (by simpa [applyOps_cons] using h3)

/-- Propagate an unconditionally preserved predicate along a trace. -/
lemma statesFrom_pres (P : Suggestion → Prop) :
    ∀ (ops : List (Suggestion → Suggestion)) (st : Suggestion),
      P st → (∀ f ∈ ops, ∀ x, P x → P (f x)) →
        (∀ x ∈ statesFrom st ops, P x) ∧ P (applyOps st ops) := by
  intro ops
  induction ops with
  | nil =>
    intro st h _
    refine ⟨?_, h⟩
    intro x hx
    simp only [statesFrom, List.mem_singleton] at hx
    exact hx ▸ h
  | cons f fs ih =>
    intro st h hops
    have hf : P (f st) := hops f (List.mem_cons_self _ _) st h
    have := ih (f st) hf (fun g hg => hops g (List.mem_cons_of_mem _ hg))
    refine ⟨?_, by simpa [applyOps_cons] using this.2⟩
    intro x hx
    simp only [statesFrom, List.mem_cons] at hx
    rcases hx with rfl | hx2
    · exact h
    · exact this.1 x hx2

lemma add_server_min_nodup {s : Server} {st : Suggestion}
    (h : st.min.Nodup) : (add_server s st).min.Nodup := by
  unfold add_server
  split
  · exact h
  · rename_i hs
    exact List.nodup_append.mpr ⟨h, List.nodup_singleton s,
      by intro t ht hts; exact hs (List.mem_singleton.mp hts ▸ ht)⟩

/-- The invariant the first pass maintains: only the `min` tier is touched,
and the membership guard keeps it duplicate-free. -/
lemma pass1Step_pres (job : Job) (jd : String → Nat) (s : Server)
    (st : Suggestion) (h : st.med = [] ∧ st.max = [] ∧ st.min.Nodup) :
    (pass1Step job jd s st).med = [] ∧ (pass1Step job jd s st).max = []
      ∧ (pass1Step job jd s st).min.Nodup := by
  unfold pass1Step
  split
  · exact ⟨(add_server_med s st).trans h.1, (add_server_max s st).trans h.2.1,
      add_server_min_nodup h.2.2⟩
  · exact h

/-- The effect of one second-pass iteration: disjointness holds at every
micro-step, the invariant survives, and no OTHER server enters `med` or
`max`. -/
lemma perServer2_micro (job : Job) (jd : String → Nat) (mj : Nat) (s : Server)
    (st : Suggestion) (h : StInv st) (hmed : s ∉ st.med) (hmax : s ∉ st.max) :
    (∀ x ∈ statesFrom st (perServer2 job jd mj s), TiersDisjoint x)
      ∧ StInv (applyOps st (perServer2 job jd mj s))
      ∧ (∀ t, t ≠ s → t ∉ st.med →
          t ∉ (applyOps st (perServer2 job jd mj s)).med)
      ∧ (∀ t, t ≠ s → t ∉ st.max →
          t ∉ (applyOps st (perServer2 job jd mj s)).max) := by
  -- step 1: the conditional minimum-requirements add
  have h1 : StInv (addOp job s st) ∧ (addOp job s st).med = st.med
      ∧ (addOp job s st).max = st.max := by
    unfold addOp
    split
    · exact ⟨add_server_StInv h hmed hmax, add_server_med s st,
        add_server_max s st⟩
    · exact ⟨h, rfl, rfl⟩
  set st1 := addOp job s st with hst1
  -- step 2: the conditional age promotion
  have h2 : StInv (moveOp job s st1) ∧ (moveOp job s st1).max = st1.max
      ∧ (∀ t, t ≠ s → t ∉ st1.med → t ∉ (moveOp job s st1).med) := by
    unfold moveOp
    split
    · refine ⟨move_server_StInv h1.1 (h1.2.2 ▸ hmax), move_server_max s st1, ?_⟩
      intro t hts htm hc
      rcases move_server_med_mem hc with h3 | h3
      · exact htm h3
      · exact hts h3
    · exact ⟨h1.1, rfl, fun t _ htm => htm⟩
  set st2 := moveOp job s st1 with hst2
  -- steps 3-5: the conditional removals, which preserve everything
  have hrem : ∀ (f : Suggestion → Suggestion),
      (f = rem1Op job s ∨ f = rem2Op job s ∨ f = rem3Op job jd mj s) →
      ∀ x, StInv x → StInv (f x)
        ∧ (∀ t, t ∉ x.med → t ∉ (f x).med)
        ∧ (∀ t, t ∉ x.max → t ∉ (f x).max) := by
    intro f hf x hx
    have hbody : ∀ (c : Bool),
        StInv (if c then remove_server s x else x)
          ∧ (∀ t, t ∉ x.med → t ∉ (if c then remove_server s x else x).med)
          ∧ (∀ t, t ∉ x.max → t ∉ (if c then remove_server s x else x).max) := by
      intro c
      cases c
      · exact ⟨hx, fun t ht => ht, fun t ht => ht⟩
      · exact ⟨remove_server_StInv hx,
          fun t ht hc => ht (remove_server_med_mem hc),
          fun t ht hc => ht (remove_server_max_mem hc)⟩
    rcases hf with rfl | rfl | rfl
    · exact hbody _
    · exact hbody _
    · exact hbody _
  have h3 := hrem (rem1Op job s) (Or.inl rfl) st2 h2.1
  set st3 := rem1Op job s st2 with hst3
  have h4 := hrem (rem2Op job s) (Or.inr (Or.inl rfl)) st3 h3.1
  set st4 := rem2Op job s st3 with hst4
  have h5 := hrem (rem3Op job jd mj s) (Or.inr (Or.inr rfl)) st4 h4.1
  set st5 := rem3Op job jd mj s st4 with hst5
  have happly : applyOps st (perServer2 job jd mj s) = st5 := rfl
  refine ⟨?_, happly ▸ h5.1, ?_, ?_⟩
  · intro x hx
    have hx6 : x = st ∨ x = st1 ∨ x = st2 ∨ x = st3 ∨ x = st4 ∨ x = st5 := by
      simpa [perServer2, statesFrom, hst1, hst2, hst3, hst4, hst5] using hx
    rcases hx6 with rfl | rfl | rfl | rfl | rfl | rfl
    · exact h.1
    · exact h1.1.1
    · exact h2.1.1
    · exact h3.1.1
    · exact h4.1.1
    · exact h5.1.1
  · intro t hts htm
    rw [happly]
    exact h5.2.1 t (h4.2.1 t (h3.2.1 t (h2.2.2 t hts (h1.2.1 ▸ htm))))
  · intro t hts htm
    rw [happly]
    exact h5.2.2 t (h4.2.2 t (h3.2.2 t (h2.2.1 ▸ (h1.2.2 ▸ htm))))

/-- Trace invariant of the whole second pass: every state has disjoint tiers,
the final state satisfies the full invariant, and servers outside the
processed list never enter `med` or `max`. -/
lemma pass2_segment (job : Job) (jd : String → Nat) (mj : Nat) :
    ∀ (servers : List Server) (st : Suggestion),
      StInv st → (∀ t ∈ servers, t ∉ st.med ∧ t ∉ st.max) → servers.Nodup →
      (∀ x ∈ statesFrom st (pass2Ops job jd mj servers), TiersDisjoint x)
        ∧ StInv (applyOps st (pass2Ops job jd mj servers))
        ∧ (∀ t, t ∉ st.med → t ∉ servers →
            t ∉ (applyOps st (pass2Ops job jd mj servers)).med)
        ∧ (∀ t, t ∉ st.max → t ∉ servers →
            t ∉ (applyOps st (pass2Ops job jd mj servers)).max) := by
  intro servers
  induction servers with
  | nil =>
    intro st h _ _
    refine ⟨?_, h, fun t ht _ => ht, fun t ht _ => ht⟩
    intro x hx
    simp only [pass2Ops, List.flatMap_nil, statesFrom, List.mem_singleton] at hx
    exact hx ▸ h.1
  | cons s rest ih =>
    intro st h hmm hnd
    have hsplit : pass2Ops job jd mj (s :: rest)
        = perServer2 job jd mj s ++ pass2Ops job jd mj rest := by
      simp [pass2Ops]
    have hs := hmm s (List.mem_cons_self _ _)
    have hmicro := perServer2_micro job jd mj s st h hs.1 hs.2
    set st' := applyOps st (perServer2 job jd mj s) with hst'
    have hsrest : s ∉ rest := (List.nodup_cons.mp hnd).1
    have hmm' : ∀ t ∈ rest, t ∉ st'.med ∧ t ∉ st'.max := by
      intro t ht
      have hts : t ≠ s := fun hc => hsrest (hc ▸ ht)
      have := hmm t (List.mem_cons_of_mem _ ht)
      exact ⟨hmicro.2.2.1 t hts this.1, hmicro.2.2.2 t hts this.2⟩
    have hrest := ih st' hmicro.2.1 hmm' (List.nodup_cons.mp hnd).2
    have happ : applyOps st (pass2Ops job jd mj (s :: rest))
        = applyOps st' (pass2Ops job jd mj rest) := by
      rw [hsplit, applyOps_append]
    refine ⟨?_, happ ▸ hrest.2.1, ?_, ?_⟩
    · intro x hx
      rw [hsplit] at hx
      rcases mem_statesFrom_append _ _ _ _ hx with h1 | h1
      · exact hmicro.1 x h1
      · exact hrest.1 x h1
    · intro t htm hts
      have hts' : t ≠ s := fun hc => hts (hc ▸ List.mem_cons_self _ _)
      have htr : t ∉ rest := fun hc => hts (List.mem_cons_of_mem _ hc)
      rw [happ]
      exact hrest.2.2.1 t (hmicro.2.2.1 t hts' htm) htr
    · intro t htm hts
      have hts' : t ≠ s := fun hc => hts (hc ▸ List.mem_cons_self _ _)
      have htr : t ∉ rest := fun hc => hts (List.mem_cons_of_mem _ hc)
      rw [happ]
      exact hrest.2.2.2 t (hmicro.2.2.2 t hts' htm) htr

/-- C6: during one run of the candidate filter from the fresh empty
suggestion — at every intermediate point of the first pass, the second pass
and the previous-suggestion removals, and at the end — no worker is a member
of two of the three tier lists. -/
theorem C6_tiers_disjoint (job : Job) (jd : String → Nat) (mj k : Nat)
    (prevs : List (List Server)) (servers : List Server)
    (hnd : servers.Nodup) :
    ∀ x ∈ filterStates job jd mj k prevs servers, TiersDisjoint x := by
  intro x hx
  have hP1 := statesFrom_pres
    (fun st => st.med = [] ∧ st.max = [] ∧ st.min.Nodup)
    (pass1Ops job jd servers) Suggestion.empty
    (by exact ⟨rfl, rfl, List.nodup_nil⟩)
    (by
      intro f hf y hy
      obtain ⟨s, _, rfl⟩ := List.mem_map.mp hf
      exact pass1Step_pres job jd s y hy)
  set st1 := applyOps Suggestion.empty (pass1Ops job jd servers) with hst1
  have hst1inv : StInv st1 := by
    obtain ⟨hm, hx1, hn⟩ := hP1.2
    exact ⟨tiersDisjoint_of_empty hm hx1, hn, by simp [hm], by simp [hx1]⟩
  have hseg := pass2_segment job jd mj servers st1 hst1inv
    (by intro t _; exact ⟨by simp [hP1.2.1], by simp [hP1.2.2.1]⟩) hnd
  set st2 := applyOps st1 (pass2Ops job jd mj servers) with hst2
  have hP5 := statesFrom_pres StInv (step5Ops k prevs) st2 hseg.2.1
    (by
      intro f hf y hy
      obtain ⟨s, _, rfl⟩ := List.mem_map.mp hf
      exact remove_server_StInv hy)
  unfold filterStates filterOps at hx
  rcases mem_statesFrom_append _ _ _ _ hx with h1 | h1
  · rcases mem_statesFrom_append _ _ _ _ h1 with h2 | h2
    · obtain ⟨hm, hx1, _⟩ := hP1.1 x h2
      exact tiersDisjoint_of_empty hm hx1
    · exact hseg.1 x h2
  · rw [applyOps_append] at h1
    exact (hP5.1 x h1).1

/-- C6, witness: a concrete two-worker roster classified for the concrete
pair-required job; the duplicate-freeness hypothesis and the disjointness of
every trace state are checked by evaluation. -/
theorem C6_tiers_disjoint_witness :
    ([wkYoung, wkPlain] : List Server).Nodup
      ∧ ∀ x ∈ filterStates jobYoungPair jdZero 2 2 [] [wkYoung, wkPlain],
          TiersDisjoint x :=
  ⟨by decide,
   C6_tiers_disjoint jobYoungPair jdZero 2 2 [] [wkYoung, wkPlain] (by decide)⟩

lemma add_server_not_mem {s t : Server} {st : Suggestion} (hts : s ≠ t)
    (h : notInTiers s st) : notInTiers s (add_server t st) := by
  refine ⟨?_, add_server_med t st ▸ h.2.1, add_server_max t st ▸ h.2.2⟩
  intro hc
  rcases add_server_min_mem hc with h1 | h1
  · exact h.1 h1
  · exact hts h1

lemma move_server_not_mem {s t : Server} {st : Suggestion} (hts : s ≠ t)
    (h : notInTiers s st) : notInTiers s (move_server_min_med t st) := by
  refine ⟨?_, ?_, move_server_max t st ▸ h.2.2⟩
  · intro hc
    exact h.1 (move_server_min_mem hc)
  · intro hc
    rcases move_server_med_mem hc with h1 | h1
    · exact h.2.1 h1
    · exact hts h1

lemma remove_server_not_mem {s t : Server} {st : Suggestion}
    (h : notInTiers s st) : notInTiers s (remove_server t st) :=
  ⟨fun hc => h.1 (remove_server_min_mem hc),
   fun hc => h.2.1 (remove_server_med_mem hc),
   fun hc => h.2.2 (remove_server_max_mem hc)⟩

/-- Servers other than the one a second-pass iteration processes never enter
(or re-enter) any tier during that iteration. -/
lemma perServer2_not_mem (job : Job) (jd : String → Nat) (mj : Nat)
    {s t : Server} (hts : s ≠ t) :
    ∀ f ∈ perServer2 job jd mj t, ∀ x, notInTiers s x → notInTiers s (f x) := by
  intro f hf x hx
  have hcond : ∀ (c : Bool) (g : Suggestion → Suggestion),
      (∀ y, notInTiers s y → notInTiers s (g y)) →
      notInTiers s (if c then g x else x) := by
    intro c g hg
    cases c
    · exact hx
    · exact hg x hx
  simp only [perServer2, List.mem_cons, List.mem_singleton] at hf
  rcases hf with rfl | rfl | rfl | rfl | rfl | hf
  · exact hcond _ _ (fun y hy => add_server_not_mem hts hy)
  · exact hcond _ _ (fun y hy => move_server_not_mem hts hy)
  · exact hcond _ _ (fun y hy => remove_server_not_mem hy)
  · exact hcond _ _ (fun y hy => remove_server_not_mem hy)
  · exact hcond _ _ (fun y hy => remove_server_not_mem hy)
  · exact absurd hf (List.not_mem_nil f)

lemma pass2_not_mem (job : Job) (jd : String → Nat) (mj : Nat) {s : Server}
    (servers : List Server) (st : Suggestion) (hs : s ∉ servers)
    (h : notInTiers s st) :
    notInTiers s (applyOps st (pass2Ops job jd mj servers)) := by
  refine (statesFrom_pres (notInTiers s) (pass2Ops job jd mj servers) st h ?_).2
  intro f hf x hx
  obtain ⟨t, htm, hft⟩ := List.mem_flatMap.mp hf
  have hts : s ≠ t := fun hc => hs (hc ▸ htm)
  exact perServer2_not_mem job jd mj hts f hft x hx

lemma step5_not_mem (k : Nat) (prevs : List (List Server)) {s : Server}
    (st : Suggestion) (h : notInTiers s st) :
    notInTiers s (applyOps st (step5Ops k prevs)) := by
  refine (statesFrom_pres (notInTiers s) (step5Ops k prevs) st h ?_).2
  intro f hf x hx
  obtain ⟨t, _, rfl⟩ := List.mem_map.mp hf
  exact remove_server_not_mem hx

/-- When one of the two younger-rule removal conditions fires for the server
a second-pass iteration processes, that iteration leaves the server in no
tier. -/
lemma perServer2_removes (job : Job) (jd : String → Nat) (mj : Nat)
    (s : Server) (st : Suggestion) (h : StInv st) (hmed : s ∉ st.med)
    (hmax : s ∉ st.max)
    (hrem : rem1B job s = true ∨ rem2B job s = true) :
    notInTiers s (applyOps st (perServer2 job jd mj s)) := by
  have h1 : StInv (addOp job s st) ∧ (addOp job s st).med = st.med
      ∧ (addOp job s st).max = st.max := by
    unfold addOp
    split
    · exact ⟨add_server_StInv h hmed hmax, add_server_med s st,
        add_server_max s st⟩
    · exact ⟨h, rfl, rfl⟩
  set st1 := addOp job s st with hst1
  have h2 : StInv (moveOp job s st1) := by
    unfold moveOp
    split
    · exact move_server_StInv h1.1 (h1.2.2 ▸ hmax)
    · exact h1.1
  set st2 := moveOp job s st1 with hst2
  have hself : ∀ x, notInTiers s x → notInTiers s (remove_server s x) :=
    fun x hx => remove_server_not_mem hx
  have happly : applyOps st (perServer2 job jd mj s)
      = rem3Op job jd mj s (rem2Op job s (rem1Op job s st2)) := rfl
  rw [happly]
  rcases hrem with hr1 | hr2
  · have hg : notInTiers s (rem1Op job s st2) := by
      unfold rem1Op
      rw [hr1, if_pos rfl]
      exact remove_server_gone h2
    have hg2 : notInTiers s (rem2Op job s (rem1Op job s st2)) := by
      unfold rem2Op
      split
      · exact hself _ hg
      · exact hg
    unfold rem3Op
    split
    · exact hself _ hg2
    · exact hg2
  · have h3 : StInv (rem1Op job s st2) := by
      unfold rem1Op
      split
      · exact remove_server_StInv h2
      · exact h2
    have hg : notInTiers s (rem2Op job s (rem1Op job s st2)) := by
      unfold rem2Op
      rw [hr2, if_pos rfl]
      exact remove_server_gone h3
    unfold rem3Op
    split
    · exact hself _ hg
    · exact hg

/-! ## C5 -/

/-- C5, counterexample: a worker that is senior AND young, classified for a
job with `younger_required = 1` (i.e. `True`): the removal at line 325 needs
`not is_young` and the removal at line 327 needs `younger_required == 2`, so
neither fires and the senior worker remains in a tier (here `med`, promoted
by the age rule), refuting "a senior worker is never left in any tier of a
younger-required job". -/
theorem C5_counterexample :
    Server.is_senior wkSeniorYoung = true
      ∧ Job.younger_required jobYoungSingle = 1
      ∧ wkSeniorYoung ∈ (runFilter jobYoungSingle jdZero 2 2 [] [wkSeniorYoung]).med := by
  decide

/-- C5, amended: the filter removes a senior worker from whichever tier it is
in when `younger_required == 1` (True) AND the worker is not young (line 325
fires on any non-young worker), or when `younger_required == 2` (line 327
fires on any senior worker); a worker that is both senior and young survives
a `younger_required == 1` job.  So after the run of the filter such a senior
worker is in no tier. -/
theorem C5_senior_removed (job : Job) (jd : String → Nat) (mj k : Nat)
    (prevs : List (List Server)) (servers : List Server) (s : Server)
    (hnd : servers.Nodup) (hsm : s ∈ servers)
    (hsen : s.is_senior = true)
    (hcase : (job.younger_required = 1 ∧ s.is_young = false)
      ∨ job.younger_required = 2) :
    notInTiers s (runFilter job jd mj k prevs servers) := by
  obtain ⟨l1, l2, rfl⟩ := List.append_of_mem hsm
  have hnd' := hnd
  rw [List.nodup_append] at hnd'
  obtain ⟨hndl1, hndcons, hdisj⟩ := hnd'
  have hs_l1 : s ∉ l1 := fun hc => hdisj hc (List.mem_cons_self _ _)
  have hs_l2 : s ∉ l2 := (List.nodup_cons.mp hndcons).1
  -- the removal condition the hypothesis guarantees
  have hrem : rem1B job s = true ∨ rem2B job s = true := by
    rcases hcase with ⟨hy, hyoung⟩ | hy
    · left; simp [rem1B, hy, hyoung]
    · right; simp [rem2B, hy, hsen]
  -- split the filter at this server's second-pass iteration
  have hops : filterOps job jd mj k prevs (l1 ++ s :: l2)
      = (pass1Ops job jd (l1 ++ s :: l2)
          ++ (pass2Ops job jd mj l1
              ++ (perServer2 job jd mj s ++ pass2Ops job jd mj l2)))
        ++ step5Ops k prevs := by
    simp [filterOps, pass2Ops]
  unfold runFilter runFilterFrom
  rw [hops, applyOps_append, applyOps_append, applyOps_append, applyOps_append]
  -- state after pass 1: fresh tiers, only min populated
  have hP1 := statesFrom_pres
    (fun st => st.med = [] ∧ st.max = [] ∧ st.min.Nodup)
    (pass1Ops job jd (l1 ++ s :: l2)) Suggestion.empty
    ⟨rfl, rfl, List.nodup_nil⟩
    (by
      intro f hf y hy
      obtain ⟨t, _, rfl⟩ := List.mem_map.mp hf
      exact pass1Step_pres job jd t y hy)
  set stA := applyOps Suggestion.empty (pass1Ops job jd (l1 ++ s :: l2))
    with hstA
  have hstAinv : StInv stA := by
    obtain ⟨hm, hx1, hn⟩ := hP1.2
    exact ⟨tiersDisjoint_of_empty hm hx1, hn, by simp [hm], by simp [hx1]⟩
  -- state after processing l1 in pass 2
  have hseg := pass2_segment job jd mj l1 stA hstAinv
    (by intro t _; exact ⟨by simp [hP1.2.1], by simp [hP1.2.2.1]⟩) hndl1
  set stB := applyOps stA (pass2Ops job jd mj l1) with hstB
  have hsB : s ∉ stB.med ∧ s ∉ stB.max :=
    ⟨hseg.2.2.1 s (by simp [hP1.2.1]) hs_l1,
     hseg.2.2.2 s (by simp [hP1.2.2.1]) hs_l1⟩
  -- this server's own iteration removes it
  have hgone := perServer2_removes job jd mj s stB hseg.2.1 hsB.1 hsB.2 hrem
  -- and it never comes back
  exact step5_not_mem k prevs _
    (pass2_not_mem job jd mj l2 _ hs_l2 hgone)

/-- C5, witness for the amended statement: a concrete senior non-young worker
and a `younger_required = 1` job (first case), checked end to end. -/
theorem C5_senior_removed_witness :
    ([wkSenior, wkPlain] : List Server).Nodup
      ∧ wkSenior ∈ ([wkSenior, wkPlain] : List Server)
      ∧ Server.is_senior wkSenior = true
      ∧ Job.younger_required jobYoungSingle = 1
      ∧ Server.is_young wkSenior = false
      ∧ notInTiers wkSenior
          (runFilter jobYoungSingle jdZero 2 2 [] [wkSenior, wkPlain]) :=
  ⟨by decide, by decide, by decide, by decide, by decide,
   C5_senior_removed jobYoungSingle jdZero 2 2 [] [wkSenior, wkPlain] wkSenior
     (by decide) (by decide) (by decide) (Or.inl ⟨by decide, by decide⟩)⟩

/-! ## C7: re-running the filter.

When no server satisfies the age-promotion condition, the whole filter lives
in the `min` tier; the following lemmas project each phase onto its `min`
list and compute closed forms of both the first run and the re-run. -/

/-- The effect of one first-pass iteration on the `min` list. -/
def a1min (job : Job) (jd : String → Nat) (m : List Server) (s : Server) :
    List Server :=
  if p1cond job jd s && decide (s ∉ m) then m ++ [s] else m

/-- The effect of one second-pass iteration on the `min` list when the
promotion condition is off: the conditional add followed by the three
conditional removals. -/
def f2min (job : Job) (jd : String → Nat) (mj : Nat) (m : List Server)
    (s : Server) : List Server :=
  let m1 := if minreqB job s && decide (s ∉ m) then m ++ [s] else m
  let m2 := if rem1B job s then m1.erase s else m1
  let m3 := if rem2B job s then m2.erase s else m2
  if rem3B job jd mj s then m3.erase s else m3

/-- Disqualification by any of the three second-pass removal rules. -/
def remAnyB (job : Job) (jd : String → Nat) (mj : Nat) (s : Server) : Bool :=
  rem1B job s || rem2B job s || rem3B job jd mj s

lemma pass1Step_proj (job : Job) (jd : String → Nat) (s : Server)
    (st : Suggestion) :
    pass1Step job jd s st = ⟨a1min job jd st.min s, st.med, st.max⟩ := by
  unfold pass1Step a1min add_server
  by_cases hp : p1cond job jd s = true
  · by_cases hm : s ∈ st.min
    · simp [hp, hm]
    · simp [hp, hm]
  · simp only [hp, if_neg, ite_false]
    simp [hp]

lemma pass1_apply (job : Job) (jd : String → Nat) :
    ∀ (servers : List Server) (st : Suggestion),
      applyOps st (pass1Ops job jd servers)
        = ⟨servers.foldl (a1min job jd) st.min, st.med, st.max⟩ := by
  intro servers
  induction servers with
  | nil => intro st; rfl
  | cons s rest ih =>
    intro st
    have : applyOps st (pass1Ops job jd (s :: rest))
        = applyOps (pass1Step job jd s st) (pass1Ops job jd rest) := rfl
    rw [this, ih, pass1Step_proj]
    rfl

lemma remove_server_proj (s : Server) (st : Suggestion) (hmed : st.med = [])
    (hmax : st.max = []) :
    remove_server s st = ⟨st.min.erase s, [], []⟩ := by
  unfold remove_server
  by_cases hm : s ∈ st.min
  · simp [hm, hmed, hmax]
  · simp [hm, hmed, hmax, List.erase_of_not_mem hm]
    cases st
    simp_all

lemma perServer2_proj (job : Job) (jd : String → Nat) (mj : Nat) (s : Server)
    (st : Suggestion) (hmv : moveCondB job s = false) (hmed : st.med = [])
    (hmax : st.max = []) :
    applyOps st (perServer2 job jd mj s) = ⟨f2min job jd mj st.min s, [], []⟩ := by
  have h1 : addOp job s st
      = ⟨(if minreqB job s && decide (s ∉ st.min) then st.min ++ [s] else st.min),
         st.med, st.max⟩ := by
    unfold addOp add_server
    by_cases hp : minreqB job s = true
    · by_cases hm : s ∈ st.min
      · simp [hp, hm]
      · simp [hp, hm]
    · simp [hp]
  set m1 := if minreqB job s && decide (s ∉ st.min) then st.min ++ [s] else st.min
    with hm1
  have h2 : moveOp job s (addOp job s st) = ⟨m1, st.med, st.max⟩ := by
    unfold moveOp
    rw [hmv]
    simp [h1]
  have h3 : rem1Op job s (moveOp job s (addOp job s st))
      = ⟨(if rem1B job s then m1.erase s else m1), [], []⟩ := by
    unfold rem1Op
    rw [h2]
    by_cases hr : rem1B job s = true
    · simp only [hr, if_pos]
      exact remove_server_proj s ⟨m1, st.med, st.max⟩ hmed hmax
    · simp [hr, hmed, hmax]
  set m2 := if rem1B job s then m1.erase s else m1 with hm2
  have h4 : rem2Op job s (rem1Op job s (moveOp job s (addOp job s st)))
      = ⟨(if rem2B job s then m2.erase s else m2), [], []⟩ := by
    unfold rem2Op
    rw [h3]
    by_cases hr : rem2B job s = true
    · simp only [hr, if_pos]
      exact remove_server_proj s ⟨m2, [], []⟩ rfl rfl
    · simp [hr]
  set m3 := if rem2B job s then m2.erase s else m2 with hm3
  have h5 : rem3Op job jd mj s
        (rem2Op job s (rem1Op job s (moveOp job s (addOp job s st))))
      = ⟨(if rem3B job jd mj s then m3.erase s else m3), [], []⟩ := by
    unfold rem3Op
    rw [h4]
    by_cases hr : rem3B job jd mj s = true
    · simp only [hr, if_pos]
      exact remove_server_proj s ⟨m3, [], []⟩ rfl rfl
    · simp [hr]
  have happ : applyOps st (perServer2 job jd mj s)
      = rem3Op job jd mj s
          (rem2Op job s (rem1Op job s (moveOp job s (addOp job s st)))) := rfl
  rw [happ, h5]
  rfl

lemma pass2_apply (job : Job) (jd : String → Nat) (mj : Nat) :
    ∀ (servers : List Server) (st : Suggestion),
      (∀ s ∈ servers, moveCondB job s = false) → st.med = [] → st.max = [] →
      applyOps st (pass2Ops job jd mj servers)
        = ⟨servers.foldl (f2min job jd mj) st.min, [], []⟩ := by
  intro servers
  induction servers with
  | nil =>
    intro st _ hmed hmax
    cases st
    simp_all [pass2Ops, applyOps]
  | cons s rest ih =>
    intro st hmv hmed hmax
    have hsplit : pass2Ops job jd mj (s :: rest)
        = perServer2 job jd mj s ++ pass2Ops job jd mj rest := by
      simp [pass2Ops]
    rw [hsplit, applyOps_append,
      perServer2_proj job jd mj s st (hmv s (List.mem_cons_self _ _)) hmed hmax,
      ih _ (fun t ht => hmv t (List.mem_cons_of_mem _ ht)) rfl rfl]
    rfl

lemma step5_apply (k : Nat) (prevs : List (List Server)) :
    ∀ (st : Suggestion), st.med = [] → st.max = [] →
      applyOps st (step5Ops k prevs)
        = ⟨(prevRemovals k prevs).foldl List.erase st.min, [], []⟩ := by
  suffices h : ∀ (l : List Server) (st : Suggestion), st.med = [] → st.max = [] →
      applyOps st (l.map (fun s => remove_server s))
        = ⟨l.foldl List.erase st.min, [], []⟩ by
    intro st hmed hmax
    exact h (prevRemovals k prevs) st hmed hmax
  intro l
  induction l with
  | nil =>
    intro st hmed hmax
    cases st
    simp_all [applyOps]
  | cons s rest ih =>
    intro st hmed hmax
    have : applyOps st ((s :: rest).map (fun t => remove_server t))
        = applyOps (remove_server s st) (rest.map (fun t => remove_server t)) := rfl
    rw [this, remove_server_proj s st hmed hmax, ih _ rfl rfl]
    rfl

lemma cond_erase_of_not_mem {s : Server} {m : List Server} (h : s ∉ m)
    (c : Bool) : (if c then m.erase s else m) = m := by
  cases c
  · rfl
  · simp [List.erase_of_not_mem h]

/-- The three conditional removals collapse to a single conditional erase
whenever the starting list holds at most one occurrence of the server. -/
lemma chain3 (c1 c2 c3 : Bool) (m : List Server) (s : Server)
    (hnot : s ∉ m.erase s) :
    (if c3 then
        (if c2 then (if c1 then m.erase s else m).erase s
         else if c1 then m.erase s else m).erase s
      else
        (if c2 then (if c1 then m.erase s else m).erase s
         else if c1 then m.erase s else m))
      = if c1 || c2 || c3 then m.erase s else m := by
  have h2 : (m.erase s).erase s = m.erase s := List.erase_of_not_mem hnot
  cases c1 <;> cases c2 <;> cases c3 <;> simp [h2]

lemma foldl_a1min (job : Job) (jd : String → Nat) :
    ∀ (l m : List Server), l.Nodup →
      l.foldl (a1min job jd) m
        = m ++ l.filter (fun s => p1cond job jd s && decide (s ∉ m)) := by
  intro l
  induction l with
  | nil => intro m _; simp
  | cons s rest ih =>
    intro m hnd
    obtain ⟨hs, hnd'⟩ := List.nodup_cons.mp hnd
    simp only [List.foldl_cons]
    by_cases hp : (p1cond job jd s && decide (s ∉ m)) = true
    · have hstep : a1min job jd m s = m ++ [s] := by
        unfold a1min; rw [if_pos hp]
      rw [hstep, ih _ hnd']
      have hcongr : rest.filter (fun t => p1cond job jd t && decide (t ∉ m ++ [s]))
          = rest.filter (fun t => p1cond job jd t && decide (t ∉ m)) := by
        apply List.filter_congr
        intro t ht
        have hts : t ≠ s := fun hc => hs (hc ▸ ht)
        have : (t ∈ m ++ [s]) = (t ∈ m) := by
          simp [List.mem_append, hts]
        simp [this]
      rw [hcongr]
      simp only [List.filter_cons, hp, if_pos]
      simp [List.append_assoc]
    · have hstep : a1min job jd m s = m := by
        unfold a1min; rw [if_neg hp]
      rw [hstep, ih _ hnd']
      simp only [List.filter_cons, hp, if_neg, ite_false]
      simp [hp]

lemma foldl_erase_filter :
    ∀ (ex m : List Server), m.Nodup →
      ex.foldl List.erase m = m.filter (fun s => decide (s ∉ ex)) := by
  intro ex
  induction ex with
  | nil => intro m _; simp
  | cons e ex' ih =>
    intro m h
    simp only [List.foldl_cons]
    rw [ih (m.erase e) (h.erase e), h.erase_eq_filter e, List.filter_filter]
    apply List.filter_congr
    intro a _
    by_cases hae : a = e <;> by_cases ha2 : a ∈ ex' <;> simp [hae, ha2]

/-- Survivor predicate of the first-pass adds: added by pass 1 and not
disqualified by the removal rules. -/
def q1B (job : Job) (jd : String → Nat) (mj : Nat) (s : Server) : Bool :=
  p1cond job jd s && !remAnyB job jd mj s

/-- Survivor predicate of the second-pass adds: not added by pass 1, meets
the minimum requirements, not disqualified. -/
def q2B (job : Job) (jd : String → Nat) (mj : Nat) (s : Server) : Bool :=
  !p1cond job jd s && minreqB job s && !remAnyB job jd mj s

/-- One second-pass iteration on the `min` list, collapsed: the conditional
add followed by a single conditional erase, valid whenever the server occurs
at most once after the add. -/
lemma f2min_closed (job : Job) (jd : String → Nat) (mj : Nat) (s : Server)
    (m : List Server)
    (hnot : s ∉ (if minreqB job s && decide (s ∉ m) then m ++ [s] else m).erase s) :
    f2min job jd mj m s
      = (if remAnyB job jd mj s then
          (if minreqB job s && decide (s ∉ m) then m ++ [s] else m).erase s
        else if minreqB job s && decide (s ∉ m) then m ++ [s] else m) := by
  simp only [f2min, remAnyB]
  exact chain3 _ _ _ _ s hnot

/-- One step of the first-run second pass: processing server `s` moves it
from the pass-1 segment (or adds and/or removes it) so that the state keeps
the closed form, with `s` transferred from the pending middle segment to the
processed outer segments. -/
lemma f2min_step_run1 (job : Job) (jd : String → Nat) (mj : Nat) (s : Server)
    (P R' : List Server) (hsP : s ∉ P) (hsR : s ∉ R') :
    f2min job jd mj
        (P.filter (q1B job jd mj) ++ (s :: R').filter (p1cond job jd)
          ++ P.filter (q2B job jd mj)) s
      = (P ++ [s]).filter (q1B job jd mj) ++ R'.filter (p1cond job jd)
          ++ (P ++ [s]).filter (q2B job jd mj) := by
  set A := P.filter (q1B job jd mj) with hA
  set B := R'.filter (p1cond job jd) with hB
  set Cc := P.filter (q2B job jd mj) with hC
  have hsA : s ∉ A := fun hc => hsP (List.mem_of_mem_filter hc)
  have hsB : s ∉ B := fun hc => hsR (List.mem_of_mem_filter hc)
  have hsC : s ∉ Cc := fun hc => hsP (List.mem_of_mem_filter hc)
  by_cases hp1 : p1cond job jd s = true
  · have hfc : (s :: R').filter (p1cond job jd) = s :: B := by
      simp [List.filter_cons, hp1, hB]
    rw [hfc]
    have hsinit : s ∈ A ++ (s :: B) ++ Cc := by simp
    have haddc : (minreqB job s && decide (s ∉ A ++ (s :: B) ++ Cc)) = false := by
      simp [hsinit]
    have hm1 : (if (minreqB job s && decide (s ∉ A ++ (s :: B) ++ Cc)) = true
        then (A ++ (s :: B) ++ Cc) ++ [s] else A ++ (s :: B) ++ Cc)
        = A ++ (s :: B) ++ Cc := by
      rw [haddc]; simp
    have herase : (A ++ (s :: B) ++ Cc).erase s = A ++ B ++ Cc := by
      rw [List.append_assoc, List.erase_append_right _ hsA,
        List.cons_append, List.erase_cons_head, ← List.append_assoc]
    have hnot : s ∉ (if minreqB job s && decide (s ∉ A ++ (s :: B) ++ Cc)
        then (A ++ (s :: B) ++ Cc) ++ [s] else A ++ (s :: B) ++ Cc).erase s := by
      rw [hm1, herase]
      simp [hsA, hsB, hsC]
    rw [f2min_closed job jd mj s _ hnot, hm1, herase]
    by_cases hra : remAnyB job jd mj s = true
    · rw [if_pos hra]
      have hq1 : q1B job jd mj s = false := by simp [q1B, hra]
      have hq2 : q2B job jd mj s = false := by simp [q2B, hra]
      simp [List.filter_append, List.filter_cons, hq1, hq2, List.append_assoc,
        ← hA, ← hC]
    · rw [if_neg hra]
      have hra' : remAnyB job jd mj s = false := by
        revert hra; cases remAnyB job jd mj s <;> simp
      have hq1 : q1B job jd mj s = true := by simp [q1B, hp1, hra']
      have hq2 : q2B job jd mj s = false := by simp [q2B, hp1]
      simp [List.filter_append, List.filter_cons, hq1, hq2, List.append_assoc,
        ← hA, ← hC]
  · have hp1' : p1cond job jd s = false := by
      revert hp1; cases p1cond job jd s <;> simp
    have hfc : (s :: R').filter (p1cond job jd) = B := by
      simp [List.filter_cons, hp1', hB]
    rw [hfc]
    have hsinit : s ∉ A ++ B ++ Cc := by simp [hsA, hsB, hsC]
    by_cases hmr : minreqB job s = true
    · have haddc : (minreqB job s && decide (s ∉ A ++ B ++ Cc)) = true := by
        simp [hmr, hsA, hsB, hsC]
      have hm1 : (if (minreqB job s && decide (s ∉ A ++ B ++ Cc)) = true
          then (A ++ B ++ Cc) ++ [s] else A ++ B ++ Cc)
          = (A ++ B ++ Cc) ++ [s] := by
        rw [haddc]; simp
      have herase : ((A ++ B ++ Cc) ++ [s]).erase s = A ++ B ++ Cc := by
        rw [List.erase_append_right _ hsinit]
        simp
      have hnot : s ∉ (if minreqB job s && decide (s ∉ A ++ B ++ Cc)
          then (A ++ B ++ Cc) ++ [s] else A ++ B ++ Cc).erase s := by
        rw [hm1, herase]
        exact hsinit
      rw [f2min_closed job jd mj s _ hnot, hm1, herase]
      by_cases hra : remAnyB job jd mj s = true
      · rw [if_pos hra]
        have hq1 : q1B job jd mj s = false := by simp [q1B, hp1']
        have hq2 : q2B job jd mj s = false := by simp [q2B, hra]
        simp [List.filter_append, List.filter_cons, hq1, hq2, List.append_assoc,
          ← hA, ← hC]
      · rw [if_neg hra]
        have hra' : remAnyB job jd mj s = false := by
          revert hra; cases remAnyB job jd mj s <;> simp
        have hq1 : q1B job jd mj s = false := by simp [q1B, hp1']
        have hq2 : q2B job jd mj s = true := by simp [q2B, hp1', hmr, hra']
        simp [List.filter_append, List.filter_cons, hq1, hq2, List.append_assoc,
          ← hA, ← hC]
    · have hmr' : minreqB job s = false := by
        revert hmr; cases minreqB job s <;> simp
      have haddc : (minreqB job s && decide (s ∉ A ++ B ++ Cc)) = false := by
        simp [hmr']
      have hm1 : (if (minreqB job s && decide (s ∉ A ++ B ++ Cc)) = true
          then (A ++ B ++ Cc) ++ [s] else A ++ B ++ Cc)
          = A ++ B ++ Cc := by
        rw [haddc]; simp
      have herase : (A ++ B ++ Cc).erase s = A ++ B ++ Cc :=
        List.erase_of_not_mem hsinit
      have hnot : s ∉ (if minreqB job s && decide (s ∉ A ++ B ++ Cc)
          then (A ++ B ++ Cc) ++ [s] else A ++ B ++ Cc).erase s := by
        rw [hm1, herase]
        exact hsinit
      rw [f2min_closed job jd mj s _ hnot, hm1, herase]
      have hq1 : q1B job jd mj s = false := by simp [q1B, hp1']
      have hq2 : q2B job jd mj s = false := by simp [q2B, hmr']
      by_cases hra : remAnyB job jd mj s = true
      · rw [if_pos hra]
        simp [List.filter_append, List.filter_cons, hq1, hq2, List.append_assoc,
          ← hA, ← hC]
      · rw [if_neg hra]
        simp [List.filter_append, List.filter_cons, hq1, hq2, List.append_assoc,
          ← hA, ← hC]

/-- Closed form of the first run's second pass over the whole roster. -/
lemma foldl_f2min_run1 (job : Job) (jd : String → Nat) (mj : Nat) :
    ∀ (R P : List Server), (P ++ R).Nodup →
      R.foldl (f2min job jd mj)
        (P.filter (q1B job jd mj) ++ R.filter (p1cond job jd)
          ++ P.filter (q2B job jd mj))
      = (P ++ R).filter (q1B job jd mj) ++ (P ++ R).filter (q2B job jd mj) := by
  intro R
  induction R with
  | nil => intro P _; simp
  | cons s R' ih =>
    intro P hnd
    have hnd2 : ((P ++ [s]) ++ R').Nodup := by
      rw [← List.append_cons]; exact hnd
    have hnd' := List.nodup_append.mp hnd
    have hsP : s ∉ P := fun hc => hnd'.2.2 hc (List.mem_cons_self _ _)
    have hsR : s ∉ R' := (List.nodup_cons.mp hnd'.2.1).1
    simp only [List.foldl_cons]
    rw [f2min_step_run1 job jd mj s P R' hsP hsR, ih (P ++ [s]) hnd2,
      ← List.append_cons]

/-- Closed form of one full run of the candidate filter when no server
satisfies the promotion condition: the pass-1 survivors (in roster order)
followed by the pass-2 survivors, both pruned by the previous-suggestion
removals; `med` and `max` stay empty. -/
lemma run1_closed (job : Job) (jd : String → Nat) (mj k : Nat)
    (prevs : List (List Server)) (servers : List Server)
    (hnd : servers.Nodup) (hmv : ∀ s ∈ servers, moveCondB job s = false) :
    runFilter job jd mj k prevs servers
      = ⟨servers.filter
            (fun s => q1B job jd mj s && decide (s ∉ prevRemovals k prevs))
          ++ servers.filter
            (fun s => q2B job jd mj s && decide (s ∉ prevRemovals k prevs)),
         [], []⟩ := by
  unfold runFilter runFilterFrom filterOps
  rw [applyOps_append, applyOps_append, pass1_apply]
  have hL1 : servers.foldl (a1min job jd) Suggestion.empty.min
      = servers.filter (p1cond job jd) := by
    rw [show Suggestion.empty.min = [] from rfl, foldl_a1min job jd servers [] hnd]
    simp only [List.nil_append]
    apply List.filter_congr
    intro a _
    simp
  rw [show (⟨servers.foldl (a1min job jd) Suggestion.empty.min,
      Suggestion.empty.med, Suggestion.empty.max⟩ : Suggestion)
      = ⟨servers.filter (p1cond job jd), [], []⟩ by rw [hL1]; rfl]
  rw [pass2_apply job jd mj servers _ hmv rfl rfl]
  have hrun1 := foldl_f2min_run1 job jd mj servers [] (by simpa using hnd)
  simp only [List.filter_nil, List.nil_append, List.append_nil] at hrun1
  rw [show (⟨servers.foldl (f2min job jd mj) (servers.filter (p1cond job jd)),
      [], []⟩ : Suggestion)
      = ⟨servers.filter (q1B job jd mj) ++ servers.filter (q2B job jd mj),
         [], []⟩ by rw [hrun1]]
  rw [step5_apply k prevs _ rfl rfl]
  have hnodupAB : (servers.filter (q1B job jd mj)
      ++ servers.filter (q2B job jd mj)).Nodup := by
    refine List.nodup_append.mpr ⟨hnd.filter _, hnd.filter _, ?_⟩
    intro a ha hb
    have h1 : q1B job jd mj a = true := (List.mem_filter.mp ha).2
    have h2 : q2B job jd mj a = true := (List.mem_filter.mp hb).2
    simp [q1B, q2B] at h1 h2
    exact absurd h1.1 (by simp [h2.1.1])
  rw [foldl_erase_filter (prevRemovals k prevs) _ hnodupAB]
  rw [List.filter_append, List.filter_filter, List.filter_filter]
  have hcomm : ∀ (q : Server → Bool),
      servers.filter (fun a => decide (a ∉ prevRemovals k prevs) && q a)
        = servers.filter (fun a => q a && decide (a ∉ prevRemovals k prevs)) :=
    fun q => List.filter_congr (fun a _ => Bool.and_comm _ _)
  rw [hcomm, hcomm]

/-- Survival of both the removal rules and the previous-suggestion
removals. -/
def keepB (job : Job) (jd : String → Nat) (mj : Nat) (ex : List Server)
    (s : Server) : Bool :=
  !remAnyB job jd mj s && decide (s ∉ ex)

/-- Re-added by the re-run's first pass: pass-1 eligible but absent from the
first run's result. -/
def cRerunB (job : Job) (jd : String → Nat) (mj : Nat) (ex : List Server)
    (s : Server) : Bool :=
  p1cond job jd s && !keepB job jd mj ex s

/-- Still present after the re-run's second pass, first-pass segment: the
re-added server survives the removal rules (it was dropped by the
previous-suggestion step only). -/
def j1B (job : Job) (jd : String → Nat) (mj : Nat) (ex : List Server)
    (s : Server) : Bool :=
  p1cond job jd s && !keepB job jd mj ex s && !remAnyB job jd mj s

/-- Still present after the re-run's second pass, second-pass segment. -/
def j2B (job : Job) (jd : String → Nat) (mj : Nat) (ex : List Server)
    (s : Server) : Bool :=
  !p1cond job jd s && minreqB job s && !remAnyB job jd mj s
    && !keepB job jd mj ex s

/-- One step of the re-run's second pass, against an abstract first-run
result `M1` characterized by the survivor predicates. -/
lemma f2min_step_run2 (job : Job) (jd : String → Nat) (mj : Nat)
    (ex : List Server) (s : Server) (M1 P R' : List Server)
    (hsP : s ∉ P) (hsR : s ∉ R')
    (hmem : s ∈ M1 ↔ ((p1cond job jd s && keepB job jd mj ex s)
        || (!p1cond job jd s && minreqB job s && keepB job jd mj ex s)) = true) :
    f2min job jd mj
        (M1 ++ P.filter (j1B job jd mj ex)
          ++ (s :: R').filter (cRerunB job jd mj ex)
          ++ P.filter (j2B job jd mj ex)) s
      = M1 ++ (P ++ [s]).filter (j1B job jd mj ex)
          ++ R'.filter (cRerunB job jd mj ex)
          ++ (P ++ [s]).filter (j2B job jd mj ex) := by
  set A := P.filter (j1B job jd mj ex) with hA
  set B := R'.filter (cRerunB job jd mj ex) with hB
  set Cc := P.filter (j2B job jd mj ex) with hC
  have hsA : s ∉ A := fun hc => hsP (List.mem_of_mem_filter hc)
  have hsB : s ∉ B := fun hc => hsR (List.mem_of_mem_filter hc)
  have hsC : s ∉ Cc := fun hc => hsP (List.mem_of_mem_filter hc)
  by_cases hM : s ∈ M1
  · -- already placed by the first run: everything is a no-op
    have hck := hmem.mp hM
    have hkeep : keepB job jd mj ex s = true := by
      simp only [Bool.or_eq_true, Bool.and_eq_true] at hck
      rcases hck with ⟨_, hk⟩ | ⟨⟨_, _⟩, hk⟩ <;> exact hk
    have hra : remAnyB job jd mj s = false := by
      have := (Bool.and_eq_true _ _ |>.mp hkeep).1
      revert this; cases remAnyB job jd mj s <;> simp
    have hr1 : rem1B job s = false := by
      revert hra; unfold remAnyB; cases rem1B job s <;> simp
    have hr2 : rem2B job s = false := by
      revert hra; unfold remAnyB; cases rem2B job s <;> simp
    have hr3 : rem3B job jd mj s = false := by
      revert hra; unfold remAnyB; cases rem3B job jd mj s <;> simp
    have hcB : cRerunB job jd mj ex s = false := by
      simp [cRerunB, hkeep]
    have hfc : (s :: R').filter (cRerunB job jd mj ex) = B := by
      simp [List.filter_cons, hcB, hB]
    rw [hfc]
    have hsm : s ∈ M1 ++ A ++ B ++ Cc := by simp [hM]
    have hq1 : j1B job jd mj ex s = false := by simp [j1B, hkeep]
    have hq2 : j2B job jd mj ex s = false := by simp [j2B, hkeep]
    have haddc : (minreqB job s && decide (s ∉ M1 ++ A ++ B ++ Cc)) = false := by
      simp [hM]
    have hstep : f2min job jd mj (M1 ++ A ++ B ++ Cc) s = M1 ++ A ++ B ++ Cc := by
      simp only [f2min, haddc, hr1, hr2, hr3]
      simp
    rw [hstep]
    simp [List.filter_append, List.filter_cons, hq1, hq2, ← hA, ← hC]
  · by_cases hc : cRerunB job jd mj ex s = true
    · -- re-added by the re-run's pass 1, sitting at the head of the middle
      have hfc : (s :: R').filter (cRerunB job jd mj ex) = s :: B := by
        simp [List.filter_cons, hc, hB]
      rw [hfc]
      have hsinit : s ∈ M1 ++ A ++ (s :: B) ++ Cc := by simp
      have haddc : (minreqB job s && decide (s ∉ M1 ++ A ++ (s :: B) ++ Cc))
          = false := by simp [hsinit]
      have hm1 : (if (minreqB job s && decide (s ∉ M1 ++ A ++ (s :: B) ++ Cc)) = true
          then (M1 ++ A ++ (s :: B) ++ Cc) ++ [s] else M1 ++ A ++ (s :: B) ++ Cc)
          = M1 ++ A ++ (s :: B) ++ Cc := by
        rw [haddc]; simp
      have herase : (M1 ++ A ++ (s :: B) ++ Cc).erase s = M1 ++ A ++ B ++ Cc := by
        rw [List.append_assoc, List.append_assoc,
          List.erase_append_right _ hM, List.erase_append_right _ hsA,
          List.cons_append, List.erase_cons_head,
          ← List.append_assoc, ← List.append_assoc]
      have hnot : s ∉ (if minreqB job s && decide (s ∉ M1 ++ A ++ (s :: B) ++ Cc)
          then (M1 ++ A ++ (s :: B) ++ Cc) ++ [s]
          else M1 ++ A ++ (s :: B) ++ Cc).erase s := by
        rw [hm1, herase]
        simp [hM, hsA, hsB, hsC]
      rw [f2min_closed job jd mj s _ hnot, hm1, herase]
      by_cases hra : remAnyB job jd mj s = true
      · rw [if_pos hra]
        have hq1 : j1B job jd mj ex s = false := by simp [j1B, hra]
        have hq2 : j2B job jd mj ex s = false := by simp [j2B, hra]
        simp [List.filter_append, List.filter_cons, hq1, hq2,
          List.append_assoc, ← hA, ← hC]
      · rw [if_neg hra]
        have hra' : remAnyB job jd mj s = false := by
          revert hra; cases remAnyB job jd mj s <;> simp
        have hq1 : j1B job jd mj ex s = true := by
          simp only [j1B, hra', Bool.not_false, Bool.and_true]
          exact hc
        have hq2 : j2B job jd mj ex s = false := by
          have hp1 : p1cond job jd s = true :=
            (Bool.and_eq_true _ _ |>.mp hc).1
          simp [j2B, hp1]
        simp [List.filter_append, List.filter_cons, hq1, hq2,
          List.append_assoc, ← hA, ← hC]
    · -- neither in the first-run result nor re-added: not pass-1 eligible
      have hp1' : p1cond job jd s = false := by
        by_cases hp : p1cond job jd s = true
        · by_cases hk : keepB job jd mj ex s = true
          · exact absurd (hmem.mpr (by simp [hp, hk])) hM
          · have hk' : keepB job jd mj ex s = false := by
              revert hk; cases keepB job jd mj ex s <;> simp
            exact absurd (by simp [cRerunB, hp, hk']) hc
        · revert hp; cases p1cond job jd s <;> simp
      have hfc : (s :: R').filter (cRerunB job jd mj ex) = B := by
        simp [List.filter_cons, cRerunB, hp1', hB]
      rw [hfc]
      have hsinit : s ∉ M1 ++ A ++ B ++ Cc := by simp [hM, hsA, hsB, hsC]
      by_cases hmr : minreqB job s = true
      · have hm1 : (if (minreqB job s && decide (s ∉ M1 ++ A ++ B ++ Cc)) = true
            then (M1 ++ A ++ B ++ Cc) ++ [s] else M1 ++ A ++ B ++ Cc)
            = (M1 ++ A ++ B ++ Cc) ++ [s] := by
          rw [show (minreqB job s && decide (s ∉ M1 ++ A ++ B ++ Cc)) = true by
            simp [hmr, hM, hsA, hsB, hsC]]
          simp
        have herase : ((M1 ++ A ++ B ++ Cc) ++ [s]).erase s
            = M1 ++ A ++ B ++ Cc := by
          rw [List.erase_append_right _ hsinit]
          simp
        have hnot : s ∉ (if minreqB job s && decide (s ∉ M1 ++ A ++ B ++ Cc)
            then (M1 ++ A ++ B ++ Cc) ++ [s] else M1 ++ A ++ B ++ Cc).erase s := by
          rw [hm1, herase]
          exact hsinit
        rw [f2min_closed job jd mj s _ hnot, hm1, herase]
        by_cases hra : remAnyB job jd mj s = true
        · rw [if_pos hra]
          have hq1 : j1B job jd mj ex s = false := by simp [j1B, hp1']
          have hq2 : j2B job jd mj ex s = false := by simp [j2B, hra]
          simp [List.filter_append, List.filter_cons, hq1, hq2,
            List.append_assoc, ← hA, ← hC]
        · rw [if_neg hra]
          have hra' : remAnyB job jd mj s = false := by
            revert hra; cases remAnyB job jd mj s <;> simp
          have hkeep' : keepB job jd mj ex s = false := by
            by_cases hk : keepB job jd mj ex s = true
            · exact absurd (hmem.mpr (by simp [hp1', hmr, hk])) hM
            · revert hk; cases keepB job jd mj ex s <;> simp
          have hq1 : j1B job jd mj ex s = false := by simp [j1B, hp1']
          have hq2 : j2B job jd mj ex s = true := by
            simp [j2B, hp1', hmr, hra', hkeep']
          simp [List.filter_append, List.filter_cons, hq1, hq2,
            List.append_assoc, ← hA, ← hC]
      · have hmr' : minreqB job s = false := by
          revert hmr; cases minreqB job s <;> simp
        have hm1 : (if (minreqB job s && decide (s ∉ M1 ++ A ++ B ++ Cc)) = true
            then (M1 ++ A ++ B ++ Cc) ++ [s] else M1 ++ A ++ B ++ Cc)
            = M1 ++ A ++ B ++ Cc := by
          rw [show (minreqB job s && decide (s ∉ M1 ++ A ++ B ++ Cc)) = false by
            simp [hmr']]
          simp
        have herase : (M1 ++ A ++ B ++ Cc).erase s = M1 ++ A ++ B ++ Cc :=
          List.erase_of_not_mem hsinit
        have hnot : s ∉ (if minreqB job s && decide (s ∉ M1 ++ A ++ B ++ Cc)
            then (M1 ++ A ++ B ++ Cc) ++ [s] else M1 ++ A ++ B ++ Cc).erase s := by
          rw [hm1, herase]
          exact hsinit
        rw [f2min_closed job jd mj s _ hnot, hm1, herase]
        have hq1 : j1B job jd mj ex s = false := by simp [j1B, hp1']
        have hq2 : j2B job jd mj ex s = false := by simp [j2B, hmr']
        by_cases hra : remAnyB job jd mj s = true
        · rw [if_pos hra]
          simp [List.filter_append, List.filter_cons, hq1, hq2,
            List.append_assoc, ← hA, ← hC]
        · rw [if_neg hra]
          simp [List.filter_append, List.filter_cons, hq1, hq2,
            List.append_assoc, ← hA, ← hC]

/-- Closed form of the re-run's second pass. -/
lemma foldl_f2min_run2 (job : Job) (jd : String → Nat) (mj : Nat)
    (ex M1 : List Server) :
    ∀ (R P : List Server), (P ++ R).Nodup →
      (∀ s ∈ R, (s ∈ M1 ↔ ((p1cond job jd s && keepB job jd mj ex s)
          || (!p1cond job jd s && minreqB job s && keepB job jd mj ex s)) = true)) →
      R.foldl (f2min job jd mj)
        (M1 ++ P.filter (j1B job jd mj ex) ++ R.filter (cRerunB job jd mj ex)
          ++ P.filter (j2B job jd mj ex))
      = M1 ++ (P ++ R).filter (j1B job jd mj ex)
          ++ (P ++ R).filter (j2B job jd mj ex) := by
  intro R
  induction R with
  | nil => intro P _ _; simp
  | cons s R' ih =>
    intro P hnd hch
    have hnd2 : ((P ++ [s]) ++ R').Nodup := by
      rw [← List.append_cons]; exact hnd
    have hnd' := List.nodup_append.mp hnd
    have hsP : s ∉ P := fun hc => hnd'.2.2 hc (List.mem_cons_self _ _)
    have hsR : s ∉ R' := (List.nodup_cons.mp hnd'.2.1).1
    simp only [List.foldl_cons]
    rw [f2min_step_run2 job jd mj ex s M1 P R' hsP hsR
        (hch s (List.mem_cons_self _ _)),
      ih (P ++ [s]) hnd2 (fun t ht => hch t (List.mem_cons_of_mem _ ht)),
      ← List.append_cons]

lemma disjoint_filter_filter {l1 l2 : List Server} {p q : Server → Bool}
    (h : ∀ a, p a = true → q a = true → False) :
    (l1.filter p).Disjoint (l2.filter q) := by
  intro a ha hb
  exact h a (List.mem_filter.mp ha).2 (List.mem_filter.mp hb).2

/-- C7, amended: re-running the candidate filter's passes on its own result
(same roster, same counters, same histories, no shuffle) returns the result
unchanged, PROVIDED no worker satisfies the age-promotion condition.  (When a
worker was promoted to `med`, re-running re-adds it to `min` and promotes it
again, duplicating it in `med` — see the counterexample.) -/
theorem C7_refilter_idempotent (job : Job) (jd : String → Nat) (mj k : Nat)
    (prevs : List (List Server)) (servers : List Server)
    (hnd : servers.Nodup) (hmv : ∀ s ∈ servers, moveCondB job s = false) :
    runFilterFrom (runFilter job jd mj k prevs servers) job jd mj k prevs
        servers
      = runFilter job jd mj k prevs servers := by
  set ex := prevRemovals k prevs with hex
  have hconv1 : servers.filter (fun s => q1B job jd mj s && decide (s ∉ ex))
      = servers.filter (fun s => p1cond job jd s && keepB job jd mj ex s) := by
    apply List.filter_congr
    intro a _
    simp [q1B, keepB, Bool.and_assoc]
  have hconv2 : servers.filter (fun s => q2B job jd mj s && decide (s ∉ ex))
      = servers.filter
          (fun s => !p1cond job jd s && minreqB job s && keepB job jd mj ex s) := by
    apply List.filter_congr
    intro a _
    simp [q2B, keepB, Bool.and_assoc]
  set M1 := servers.filter (fun s => p1cond job jd s && keepB job jd mj ex s)
      ++ servers.filter
          (fun s => !p1cond job jd s && minreqB job s && keepB job jd mj ex s)
    with hM1
  have hchar : ∀ s ∈ servers,
      (s ∈ M1 ↔ ((p1cond job jd s && keepB job jd mj ex s)
          || (!p1cond job jd s && minreqB job s && keepB job jd mj ex s)) = true) := by
    intro s hs
    rw [hM1]
    simp [List.mem_append, List.mem_filter, hs]
  have hrun1 : runFilter job jd mj k prevs servers = ⟨M1, [], []⟩ := by
    rw [run1_closed job jd mj k prevs servers hnd hmv, hM1, ← hex, hconv1,
      hconv2]
  rw [hrun1]
  unfold runFilterFrom filterOps
  rw [applyOps_append, applyOps_append, pass1_apply]
  have hp1fold : servers.foldl (a1min job jd) M1
      = M1 ++ servers.filter (cRerunB job jd mj ex) := by
    rw [foldl_a1min job jd servers M1 hnd]
    congr 1
    apply List.filter_congr
    intro a ha
    by_cases hp : p1cond job jd a = true
    · by_cases hk : keepB job jd mj ex a = true
      · have hm : a ∈ M1 := (hchar a ha).mpr (by simp [hp, hk])
        simp [cRerunB, hp, hk, hm]
      · have hk' : keepB job jd mj ex a = false := by
          revert hk; cases keepB job jd mj ex a <;> simp
        have hm : a ∉ M1 := fun hc => by
          have := (hchar a ha).mp hc
          simp [hk'] at this
        simp [cRerunB, hp, hk', hm]
    · have hp' : p1cond job jd a = false := by
        revert hp; cases p1cond job jd a <;> simp
      simp [cRerunB, hp']
  rw [show (⟨servers.foldl (a1min job jd) (Suggestion.mk M1 [] []).min,
      (Suggestion.mk M1 [] []).med, (Suggestion.mk M1 [] []).max⟩ : Suggestion)
      = ⟨M1 ++ servers.filter (cRerunB job jd mj ex), [], []⟩ by
        rw [show (Suggestion.mk M1 [] []).min = M1 from rfl, hp1fold]]
  rw [pass2_apply job jd mj servers _ hmv rfl rfl]
  have hrun2 := foldl_f2min_run2 job jd mj ex M1 servers []
    (by simpa using hnd) hchar
  simp only [List.filter_nil, List.nil_append, List.append_nil] at hrun2
  rw [show (⟨servers.foldl (f2min job jd mj)
      (⟨M1 ++ servers.filter (cRerunB job jd mj ex), [], []⟩ : Suggestion).min,
      [], []⟩ : Suggestion)
      = ⟨M1 ++ servers.filter (j1B job jd mj ex)
          ++ servers.filter (j2B job jd mj ex), [], []⟩ by
        rw [show (⟨M1 ++ servers.filter (cRerunB job jd mj ex), [], []⟩
            : Suggestion).min
            = M1 ++ servers.filter (cRerunB job jd mj ex) from rfl, hrun2]]
  rw [step5_apply k prevs _ rfl rfl]
  have hM1nd : M1.Nodup := by
    rw [hM1]
    refine List.nodup_append.mpr ⟨hnd.filter _, hnd.filter _, ?_⟩
    exact disjoint_filter_filter (fun a h1 h2 => by
      simp only [Bool.and_eq_true] at h1 h2
      rw [h1.1] at h2
      simp at h2)
  have hkeepM1 : ∀ a ∈ M1, keepB job jd mj ex a = true := by
    intro a ham
    rw [hM1] at ham
    rcases List.mem_append.mp ham with h1 | h1
    · exact ((Bool.and_eq_true _ _).mp (List.mem_filter.mp h1).2).2
    · exact ((Bool.and_eq_true _ _).mp (List.mem_filter.mp h1).2).2
  have hnodup3 : (M1 ++ servers.filter (j1B job jd mj ex)
      ++ servers.filter (j2B job jd mj ex)).Nodup := by
    refine List.nodup_append.mpr ⟨?_, hnd.filter _, ?_⟩
    · refine List.nodup_append.mpr ⟨hM1nd, hnd.filter _, ?_⟩
      intro a ham haj
      have hk := hkeepM1 a ham
      have : j1B job jd mj ex a = true := (List.mem_filter.mp haj).2
      simp only [j1B, Bool.and_eq_true] at this
      rw [hk] at this
      simp at this
    · intro a ham haj
      have : j2B job jd mj ex a = true := (List.mem_filter.mp haj).2
      rcases List.mem_append.mp ham with h1 | h1
      · have hk := hkeepM1 a h1
        simp only [j2B, Bool.and_eq_true] at this
        rw [hk] at this
        simp at this
      · have h2 : j1B job jd mj ex a = true := (List.mem_filter.mp h1).2
        simp only [j1B, j2B, Bool.and_eq_true] at h2 this
        rw [h2.1.1] at this
        simp at this
  rw [foldl_erase_filter ex _ hnodup3]
  have hM1f : M1.filter (fun s => decide (s ∉ ex)) = M1 :=
    List.filter_eq_self.mpr (fun a ham => by
      have := (Bool.and_eq_true _ _).mp (hkeepM1 a ham)
      simpa using this.2)
  have hJ1f : (servers.filter (j1B job jd mj ex)).filter
      (fun s => decide (s ∉ ex)) = [] := by
    rw [List.filter_eq_nil_iff]
    intro a haj
    have hj := (List.mem_filter.mp haj).2
    simp only [j1B, Bool.and_eq_true] at hj
    have hkf := hj.1.2
    have hrf := hj.2
    simp only [keepB] at hkf
    intro hc
    simp only [Bool.not_eq_true'] at hrf
    rw [show remAnyB job jd mj a = false by
        revert hrf; cases remAnyB job jd mj a <;> simp] at hkf
    simp at hkf
    simp [hkf] at hc
  have hJ2f : (servers.filter (j2B job jd mj ex)).filter
      (fun s => decide (s ∉ ex)) = [] := by
    rw [List.filter_eq_nil_iff]
    intro a haj
    have hj := (List.mem_filter.mp haj).2
    simp only [j2B, Bool.and_eq_true] at hj
    have hkf := hj.2
    have hrf := hj.1.2
    simp only [keepB] at hkf
    intro hc
    rw [show remAnyB job jd mj a = false by
        revert hrf; cases remAnyB job jd mj a <;> simp] at hkf
    simp at hkf
    simp [hkf] at hc
  rw [List.filter_append, List.filter_append, hM1f, hJ1f, hJ2f]
  simp

/-- C7, counterexample: one senior worker and a `senior_required` job.  The
first run promotes the worker to `med`; re-running the passes re-adds it to
`min` and promotes it again, so `med` ends with the worker twice — tier
contents change. -/
theorem C7_counterexample :
    runFilterFrom (runFilter jobSeniorReq jdZero 2 2 [] [wkSenior])
        jobSeniorReq jdZero 2 2 [] [wkSenior]
      ≠ runFilter jobSeniorReq jdZero 2 2 [] [wkSenior] := by
  decide

/-- C7, witness for the amended statement: a duplicate-free two-worker roster
and a job with no age requirements (so no promotion fires); the hypotheses
are discharged by evaluation. -/
theorem C7_refilter_idempotent_witness :
    ([wkA, wkB] : List Server).Nodup
      ∧ (∀ s ∈ ([wkA, wkB] : List Server),
          moveCondB ⟨"P", .NONE, .NONE, false, 0, false, false⟩ s = false)
      ∧ runFilterFrom
          (runFilter ⟨"P", .NONE, .NONE, false, 0, false, false⟩ jdZero 2 2 []
            [wkA, wkB])
          ⟨"P", .NONE, .NONE, false, 0, false, false⟩ jdZero 2 2 [] [wkA, wkB]
        = runFilter ⟨"P", .NONE, .NONE, false, 0, false, false⟩ jdZero 2 2 []
            [wkA, wkB] :=
  ⟨by decide, by decide,
   C7_refilter_idempotent ⟨"P", .NONE, .NONE, false, 0, false, false⟩ jdZero
     2 2 [] [wkA, wkB] (by decide) (by decide)⟩
